import Mathlib

/-!
Verification development for the `cache_engine` C++ library
(`src/inc/cache_engine/cache.hpp` and the policy headers under
`src/inc/cache_engine/policies/`).

The development is a shallow embedding: `std::unordered_map` is modelled by an
association list with unique keys maintained by construction, `std::map` by an
association list kept sorted on the key, `std::list`/`std::queue`/`std::vector`
by `List`.  Thrown exceptions are modelled by `Option`/sum-shaped results;
where the source catches an exception locally (the `catch` in
`policy_based_cache::evict_entries`) the embedding performs the handler
directly, so such errors never escape -- exactly as in the source.

Keys are instantiated with `Nat` and values with `String` in the concrete
theorems (mirroring `cache<int, std::string, ...>` used throughout the
repository's tests), while the definitions stay parametric like the C++
templates.
-/

namespace CacheEngine

set_option linter.unusedSectionVars false
set_option linter.unnecessarySimpa false

variable {K V : Type} [DecidableEq K]

/-! ### Association-list model of `std::unordered_map` -/

/-- Model of `std::unordered_map::find`: first binding of key `k`. -/
def mlookup : List (K × V) → K → Option V
  | [], _ => none
  | (a, b) :: rest, k => if a = k then some b else mlookup rest k

/-- Model of `map[k] = v` (insert-or-assign). -/
def mset : List (K × V) → K → V → List (K × V)
  | [], k, v => [(k, v)]
  | (a, b) :: rest, k, v => if a = k then (a, v) :: rest else (a, b) :: mset rest k v

/-- Model of `std::unordered_map::erase(k)`: removes the (unique) binding. -/
def merase : List (K × V) → K → List (K × V)
  | [], _ => []
  | (a, b) :: rest, k => if a = k then rest else (a, b) :: merase rest k

/-- The keys of an association list. -/
def mkeys (l : List (K × V)) : List K := l.map Prod.fst

theorem mlookup_mset_self (l : List (K × V)) (k : K) (v : V) :
    mlookup (mset l k v) k = some v := by
  induction l with
  | nil => simp [mset, mlookup]
  | cons hd tl ih =>
    obtain ⟨a, b⟩ := hd
    by_cases h : a = k <;> simp [mset, mlookup, h, ih]

theorem mlookup_mset_of_ne {a k : K} (l : List (K × V)) (v : V) (h : a ≠ k) :
    mlookup (mset l k v) a = mlookup l a := by
  have h' : ¬ k = a := fun hh => h hh.symm
  induction l with
  | nil => simp [mset, mlookup, h']
  | cons hd tl ih =>
    obtain ⟨c, b⟩ := hd
    by_cases h1 : c = k
    · subst h1
      simp [mset, mlookup, h']
    · by_cases h2 : c = a <;> simp [mset, mlookup, h1, h2, h, ih]

theorem length_mset_present {l : List (K × V)} {k : K} (v : V)
    (h : (mlookup l k).isSome) : (mset l k v).length = l.length := by
  induction l with
  | nil => simp [mlookup] at h
  | cons hd tl ih =>
    obtain ⟨a, b⟩ := hd
    by_cases h1 : a = k
    · simp [mset, h1]
    · simp only [mlookup, if_neg h1] at h
      simp [mset, h1, ih h]

theorem length_mset_absent {l : List (K × V)} {k : K} (v : V)
    (h : mlookup l k = none) : (mset l k v).length = l.length + 1 := by
  induction l with
  | nil => simp [mset]
  | cons hd tl ih =>
    obtain ⟨a, b⟩ := hd
    by_cases h1 : a = k
    · simp [mlookup, h1] at h
    · simp only [mlookup, if_neg h1] at h
      simp [mset, h1, ih h]

theorem mlookup_merase_of_ne {a k : K} (l : List (K × V)) (h : a ≠ k) :
    mlookup (merase l k) a = mlookup l a := by
  have h' : ¬ k = a := fun hh => h hh.symm
  induction l with
  | nil => simp [merase]
  | cons hd tl ih =>
    obtain ⟨c, b⟩ := hd
    by_cases h1 : c = k
    · subst h1
      simp [merase, mlookup, h']
    · by_cases h2 : c = a <;> simp [merase, mlookup, h1, h2, h, ih]

theorem mlookup_isSome_iff_mem_mkeys {l : List (K × V)} {k : K} :
    (mlookup l k).isSome ↔ k ∈ mkeys l := by
  induction l with
  | nil => simp [mlookup, mkeys]
  | cons hd tl ih =>
    obtain ⟨a, b⟩ := hd
    by_cases h1 : a = k
    · simp [mlookup, mkeys, h1]
    · have h1' : ¬ k = a := fun hh => h1 hh.symm
      simp [mlookup, mkeys, h1, h1', ih]

theorem mlookup_merase_self {l : List (K × V)} {k : K}
    (h : (mkeys l).Nodup) : mlookup (merase l k) k = none := by
  induction l with
  | nil => simp [merase, mlookup]
  | cons hd tl ih =>
    obtain ⟨a, b⟩ := hd
    simp only [mkeys, List.map_cons, List.nodup_cons] at h
    by_cases h1 : a = k
    · subst h1
      cases hv : mlookup tl a with
      | none => simpa [merase] using hv
      | some v =>
        exact absurd (mlookup_isSome_iff_mem_mkeys.mp (by simp [hv])) h.1
    · simp only [merase, if_neg h1, mlookup, if_neg h1]
      exact ih h.2

theorem length_merase_present {l : List (K × V)} {k : K}
    (h : (mlookup l k).isSome) : (merase l k).length + 1 = l.length := by
  induction l with
  | nil => simp [mlookup] at h
  | cons hd tl ih =>
    obtain ⟨a, b⟩ := hd
    by_cases h1 : a = k
    · simp [merase, h1]
    · simp only [mlookup, if_neg h1] at h
      simp [merase, h1, ih h]

theorem merase_absent {l : List (K × V)} {k : K}
    (h : mlookup l k = none) : merase l k = l := by
  induction l with
  | nil => simp [merase]
  | cons hd tl ih =>
    obtain ⟨a, b⟩ := hd
    by_cases h1 : a = k
    · simp [mlookup, h1] at h
    · simp only [mlookup, if_neg h1] at h
      simp [merase, h1, ih h]

theorem mlookup_merase_none {l : List (K × V)} {a k : K}
    (h : mlookup l a = none) : mlookup (merase l k) a = none := by
  by_cases hak : a = k
  · subst hak
    induction l with
    | nil => simp [merase, mlookup]
    | cons hd tl ih =>
      obtain ⟨c, b⟩ := hd
      by_cases h1 : c = a
      · simp [mlookup, h1] at h
      · simp only [mlookup, if_neg h1] at h
        simp [merase, mlookup, h1, ih h]
  · rw [mlookup_merase_of_ne l hak]; exact h

theorem mem_mkeys_mset {l : List (K × V)} {a k : K} (v : V)
    (h : a ∈ mkeys (mset l k v)) : a = k ∨ a ∈ mkeys l := by
  by_cases hak : a = k
  · exact Or.inl hak
  · right
    have : (mlookup (mset l k v) a).isSome := mlookup_isSome_iff_mem_mkeys.mpr h
    rw [mlookup_mset_of_ne l v hak] at this
    exact mlookup_isSome_iff_mem_mkeys.mp this

theorem mkeys_nodup_mset {l : List (K × V)} {k : K} (v : V)
    (h : (mkeys l).Nodup) : (mkeys (mset l k v)).Nodup := by
  induction l with
  | nil => simp [mset, mkeys]
  | cons hd tl ih =>
    obtain ⟨a, b⟩ := hd
    simp only [mkeys, List.map_cons, List.nodup_cons] at h
    by_cases h1 : a = k
    · subst h1
      have : mset ((a, b) :: tl) a v = (a, v) :: tl := by simp [mset]
      rw [this]
      simp only [mkeys, List.map_cons, List.nodup_cons]
      exact ⟨h.1, h.2⟩
    · simp only [mset, if_neg h1, mkeys, List.map_cons, List.nodup_cons]
      refine ⟨?_, ih h.2⟩
      intro hmem
      rcases mem_mkeys_mset v hmem with h2 | h2
      · exact h1 h2
      · exact h.1 h2

theorem mem_mkeys_merase {l : List (K × V)} {a k : K}
    (h : a ∈ mkeys (merase l k)) : a ∈ mkeys l := by
  by_cases hak : a = k
  · subst hak
    induction l with
    | nil => simpa [merase] using h
    | cons hd tl ih =>
      obtain ⟨c, b⟩ := hd
      by_cases h1 : c = a
      · simp [mkeys, h1]
      · simp only [merase, if_neg h1, mkeys, List.map_cons, List.mem_cons] at h ⊢
        rcases h with h | h
        · exact Or.inl h
        · exact Or.inr (ih h)
  · have : (mlookup (merase l k) a).isSome := mlookup_isSome_iff_mem_mkeys.mpr h
    rw [mlookup_merase_of_ne l hak] at this
    exact mlookup_isSome_iff_mem_mkeys.mp this

theorem mkeys_nodup_merase {l : List (K × V)} {k : K}
    (h : (mkeys l).Nodup) : (mkeys (merase l k)).Nodup := by
  induction l with
  | nil => simp [merase, mkeys]
  | cons hd tl ih =>
    obtain ⟨a, b⟩ := hd
    simp only [mkeys, List.map_cons, List.nodup_cons] at h
    by_cases h1 : a = k
    · simpa [merase, h1, mkeys] using h.2
    · simp only [merase, if_neg h1, mkeys, List.map_cons, List.nodup_cons]
      exact ⟨fun hmem => h.1 (mem_mkeys_merase hmem), ih h.2⟩

/-! ### `lru_eviction_policy` (eviction_policies.hpp, lines 32-120)

State: `m_access_list` (front = most recently used).  The companion map
`m_key_to_iterator` holds, for every key of the list, an iterator to its node;
all its uses are presence tests plus splice/erase at that node, so the list
alone determines the behaviour and the map is kept implicit. -/

/-- `lru_eviction_policy::on_access`: splice the key's node to the front. -/
def lru_on_access (k : K) (l : List K) : List K :=
  if k ∈ l then k :: l.erase k else l

/-- `lru_eviction_policy::on_insert`: push the key to the front. -/
def lru_on_insert (k : K) (l : List K) : List K := k :: l

/-- `lru_eviction_policy::on_update`: same as `on_access`. -/
def lru_on_update (k : K) (l : List K) : List K := lru_on_access k l

/-- `lru_eviction_policy::select_victim`: the back of the list; `none` models
the thrown `std::runtime_error` on an empty policy. -/
def lru_select_victim (l : List K) : Option K := l.getLast?

/-- `lru_eviction_policy::remove_key`: erase the key's node if tracked. -/
def lru_remove_key (k : K) (l : List K) : List K :=
  if k ∈ l then l.erase k else l

/-! ### `fifo_eviction_policy` (eviction_policies.hpp, lines 236-338) -/

/-- State of `fifo_eviction_policy`: `m_insertion_queue` and the presence map
`m_key_exists` (value `false` = lazily removed). -/
structure FifoState (K : Type) where
  insertionQueue : List K
  keyExists : List (K × Bool)
deriving DecidableEq

/-- `fifo_eviction_policy::on_insert`. -/
def fifo_on_insert (k : K) (st : FifoState K) : FifoState K :=
  { insertionQueue := st.insertionQueue ++ [k], keyExists := mset st.keyExists k true }

/-- `fifo_eviction_policy::on_access`: FIFO ignores accesses. -/
def fifo_on_access (_k : K) (st : FifoState K) : FifoState K := st

/-- `fifo_eviction_policy::on_update`: FIFO ignores updates. -/
def fifo_on_update (_k : K) (st : FifoState K) : FifoState K := st

/-- The cleanup loop inside `fifo_eviction_policy::select_victim`: pop leading
queue entries until one is still marked present; the returned candidate has
already been popped from the queue.  `none` models the thrown error. -/
def fifo_select_loop (m : List (K × Bool)) : List K → Option K × List K
  | [] => (none, [])
  | c :: rest => if mlookup m c = some true then (some c, rest) else fifo_select_loop m rest

/-- `fifo_eviction_policy::select_victim`. -/
def fifo_select_victim (st : FifoState K) : Option K × FifoState K :=
  let p := fifo_select_loop st.keyExists st.insertionQueue
  (p.1, { st with insertionQueue := p.2 })

/-- `fifo_eviction_policy::remove_key`: mark the key as removed (tombstone). -/
def fifo_remove_key (k : K) (st : FifoState K) : FifoState K :=
  if (mlookup st.keyExists k).isSome then
    { st with keyExists := mset st.keyExists k false }
  else st

/-- `fifo_eviction_policy::empty`: `m_key_exists.empty()` — note this tests the
presence map, tombstones included. -/
def fifo_empty (st : FifoState K) : Bool := st.keyExists.isEmpty

/-- `fifo_eviction_policy::size`: counts only entries still marked `true`. -/
def fifo_size (st : FifoState K) : Nat := (st.keyExists.filter (fun p => p.2)).length

/-- `fifo_eviction_policy::clear`. -/
def fifo_clear (_st : FifoState K) : FifoState K := ⟨[], []⟩

/-! ### `lfu_eviction_policy` (eviction_policies.hpp, lines 352-500)

`m_frequency_buckets` is a `std::map<std::size_t, std::list<key_t>>`, modelled
as an association list sorted strictly ascending on the frequency.  The
iterator map `m_key_to_iterator` always points at the unique node of the key
inside its bucket, so erasing via the iterator is erasing the key from the
bucket's list. -/

/-- State of `lfu_eviction_policy` (also reused for `mfu_eviction_policy`,
whose data members are identical). -/
structure LfuState (K : Type) where
  keyFreq : List (K × Nat)
  buckets : List (Nat × List K)
deriving DecidableEq

/-- `m_frequency_buckets[f].push_back(k)`: append `k` to bucket `f`, creating
the bucket at its sorted position when absent (std::map `operator[]`). -/
def bucket_push_back (f : Nat) (k : K) : List (Nat × List K) → List (Nat × List K)
  | [] => [(f, [k])]
  | (g, l) :: rest =>
    if f < g then (f, [k]) :: (g, l) :: rest
    else if f = g then (g, l ++ [k]) :: rest
    else (g, l) :: bucket_push_back f k rest

/-- Erase key `k` from bucket `f` (via the stored iterator) and delete the
bucket when it becomes empty; no-op when the bucket or the iterator entry is
missing.  This is the bucket-maintenance block shared by
`lfu_eviction_policy::remove_key` and `increment_frequency`. -/
def bucket_erase_key (f : Nat) (k : K) : List (Nat × List K) → List (Nat × List K)
  | [] => []
  | (g, l) :: rest =>
    if f = g then
      if k ∈ l then
        (if l.erase k = [] then rest else (g, l.erase k) :: rest)
      else (g, l) :: rest
    else (g, l) :: bucket_erase_key f k rest

/-- `lfu_eviction_policy::on_insert`: frequency 1, appended to bucket 1. -/
def lfu_on_insert (k : K) (st : LfuState K) : LfuState K :=
  { keyFreq := mset st.keyFreq k 1, buckets := bucket_push_back 1 k st.buckets }

/-- `lfu_eviction_policy::increment_frequency`. -/
def lfu_increment_frequency (k : K) (st : LfuState K) : LfuState K :=
  match mlookup st.keyFreq k with
  | none => st
  | some f =>
    { keyFreq := mset st.keyFreq k (f + 1),
      buckets := bucket_push_back (f + 1) k (bucket_erase_key f k st.buckets) }

/-- `lfu_eviction_policy::on_access`. -/
def lfu_on_access (k : K) (st : LfuState K) : LfuState K := lfu_increment_frequency k st

/-- `lfu_eviction_policy::on_update`. -/
def lfu_on_update (k : K) (st : LfuState K) : LfuState K := lfu_increment_frequency k st

/-- The scan in `lfu_eviction_policy::select_victim`: first item of the first
non-empty bucket; `none` models both thrown `std::runtime_error`s. -/
def first_bucket_key : List (Nat × List K) → Option K
  | [] => none
  | (_, []) :: rest => first_bucket_key rest
  | (_, k :: _) :: _ => some k

/-- `lfu_eviction_policy::select_victim`. -/
def lfu_select_victim (st : LfuState K) : Option K := first_bucket_key st.buckets

/-- `lfu_eviction_policy::remove_key`. -/
def lfu_remove_key (k : K) (st : LfuState K) : LfuState K :=
  match mlookup st.keyFreq k with
  | none => st
  | some f =>
    { keyFreq := merase st.keyFreq k, buckets := bucket_erase_key f k st.buckets }

/-- `lfu_eviction_policy::size`. -/
def lfu_size (st : LfuState K) : Nat := st.keyFreq.length

/-- `lfu_eviction_policy::empty`. -/
def lfu_empty (st : LfuState K) : Bool := st.keyFreq.isEmpty

/-! ### `mfu_eviction_policy` (eviction_policies.hpp, lines 514-662)

Data members and all mutators are textually identical to the LFU policy; only
`select_victim` differs (it scans from `rbegin`). -/

/-- `mfu_eviction_policy::on_insert`. -/
def mfu_on_insert (k : K) (st : LfuState K) : LfuState K :=
  { keyFreq := mset st.keyFreq k 1, buckets := bucket_push_back 1 k st.buckets }

/-- `mfu_eviction_policy::increment_frequency`. -/
def mfu_increment_frequency (k : K) (st : LfuState K) : LfuState K :=
  match mlookup st.keyFreq k with
  | none => st
  | some f =>
    { keyFreq := mset st.keyFreq k (f + 1),
      buckets := bucket_push_back (f + 1) k (bucket_erase_key f k st.buckets) }

/-- `mfu_eviction_policy::on_access`. -/
def mfu_on_access (k : K) (st : LfuState K) : LfuState K := mfu_increment_frequency k st

/-- `mfu_eviction_policy::on_update`. -/
def mfu_on_update (k : K) (st : LfuState K) : LfuState K := mfu_increment_frequency k st

/-- `mfu_eviction_policy::select_victim`: first item of the highest non-empty
bucket (reverse scan). -/
def mfu_select_victim (st : LfuState K) : Option K := first_bucket_key st.buckets.reverse

/-- `mfu_eviction_policy::remove_key`. -/
def mfu_remove_key (k : K) (st : LfuState K) : LfuState K :=
  match mlookup st.keyFreq k with
  | none => st
  | some f =>
    { keyFreq := merase st.keyFreq k, buckets := bucket_erase_key f k st.buckets }

/-! ### `random_eviction_policy` (eviction_policies.hpp, lines 676-784)

The constructor calls `init_random`, which seeds the process-wide C PRNG via
`std::srand(std::time(nullptr))`; `select_victim` then draws `std::rand()`.
There is no `seed(value)` method.  The embedding makes the ambient global
PRNG explicit: `stream` is the sequence of values the next calls of
`std::rand()` will return (an environment input the caller cannot set through
the policy's interface). -/

/-- State of `random_eviction_policy` plus the ambient global PRNG stream.
The index map `m_key_to_index` always maps `m_keys[i] ↦ i`, so it is kept
implicit (positions in `keys`). -/
structure RandState (K : Type) where
  keys : List K
  stream : List Nat
deriving DecidableEq

/-- `random_eviction_policy::on_insert`: append, record index. -/
def rand_on_insert (k : K) (st : RandState K) : RandState K :=
  { st with keys := st.keys ++ [k] }

/-- `random_eviction_policy::select_victim`: `m_keys[rand() % m_keys.size()]`;
consumes one value of the global PRNG stream. -/
def rand_select_victim (st : RandState K) : Option K × RandState K :=
  if st.keys.isEmpty then (none, st)
  else
    let r := st.stream.headI
    (st.keys[r % st.keys.length]?, { st with stream := st.stream.tail })

/-- `random_eviction_policy::remove_key`: swap-and-pop via the index map. -/
def rand_remove_key (k : K) (st : RandState K) : RandState K :=
  match st.keys.indexOf? k with
  | none => st
  | some i =>
    let lastIdx := st.keys.length - 1
    if i = lastIdx then { st with keys := st.keys.dropLast }
    else { st with keys := (st.keys.set i (st.keys.getLastD k)).dropLast }

/-! ### Capacity policies (capacity_policies.hpp) -/

/-- `fixed_capacity_policy::needs_eviction`: `current_size >= m_capacity`. -/
def fixed_needs_eviction (cap s : Nat) : Bool := cap ≤ s

/-- `fixed_capacity_policy::eviction_count`: `(s - cap) + 1` when over. -/
def fixed_eviction_count (cap s : Nat) : Nat := if cap ≤ s then s - cap + 1 else 0

/-- State of `soft_capacity_policy`: `m_target_capacity` and `m_max_capacity`
(the tolerance only matters through `maxCap`). -/
structure SoftCap where
  target : Nat
  maxCap : Nat
deriving DecidableEq

/-- The constructor of `soft_capacity_policy`:
`m_max_capacity = size_t(double(target) * (1.0 + tolerance))` — truncation of
the product toward zero, modelled with exact rational arithmetic. -/
def soft_cap_make (target : Nat) (tol : ℚ) : SoftCap :=
  ⟨target, (((target : ℚ) * (1 + tol)).floor).toNat⟩

/-- `soft_capacity_policy::needs_eviction`: `s >= m_max_capacity`. -/
def soft_needs_eviction (c : SoftCap) (s : Nat) : Bool := c.maxCap ≤ s

/-- `soft_capacity_policy::eviction_count`. -/
def soft_eviction_count (c : SoftCap) (s : Nat) : Nat :=
  if c.maxCap ≤ s then s - c.target + 1
  else if c.target < s then 1
  else 0

/-- The number of evictions the spec's capacity contract asks for (written
from the spec's words, for comparison): the minimum `k` such that after
removing `k` elements and inserting one, the resulting size is at most the
hard maximum `m`; that minimum is `s + 1 - m` (0 when `s + 1 ≤ m`). -/
def spec_min_eviction_count (m s : Nat) : Nat := s + 1 - m

/-! ### `policy_based_cache` (cache.hpp, lines 598-908)

The cache owns one instance of each policy; the embedding is parametric over
the three stateful policy interfaces exactly like the C++ template. -/

/-- The `eviction_policy_base` interface, as consumed by the facade.
`selectVictim` returns `none` where the C++ policy throws, and may mutate the
policy state (FIFO pops its queue). -/
structure EvictionOps (K E : Type) where
  onAccess : K → E → E
  onInsert : K → E → E
  onUpdate : K → E → E
  selectVictim : E → Option K × E
  removeKey : K → E → E
  clearAll : E → E

/-- The `access_policy_base` interface. -/
structure AccessOps (K A : Type) where
  onAccess : K → A → Bool × A
  onMiss : K → A → Bool × A

/-- The `capacity_policy_base` interface (stateless queries plus
`set_capacity`). -/
structure CapacityOps (C : Type) where
  capacity : C → Nat
  setCapacity : Nat → C → C
  needsEviction : C → Nat → Bool
  evictionCount : C → Nat → Nat

/-- A `policy_based_cache` object: the hash storage plus the three policy
states. -/
structure PBCache (K V E A C : Type) where
  storage : List (K × V)
  evict : E
  acc : A
  cap : C
deriving DecidableEq

variable {E A C : Type}

/-- `policy_based_cache::evict_entries` (cache.hpp, lines 825-850).  The loop
body is wrapped in `try/catch (const std::runtime_error&) { break; }`: an
empty-policy error from `select_victim` and the `policy_error` thrown when the
victim is not in storage are both caught on the spot and terminate the loop,
so no error ever escapes this function. -/
def pb_evict_entries (eo : EvictionOps K E) (count : Nat)
    (st : PBCache K V E A C) : PBCache K V E A C :=
  match count with
  | 0 => st
  | n + 1 =>
    if st.storage.isEmpty then st
    else
      match eo.selectVictim st.evict with
      | (none, e) => { st with evict := e }
      | (some vk, e) =>
        if (mlookup st.storage vk).isSome then
          pb_evict_entries eo n
            { st with storage := merase st.storage vk, evict := eo.removeKey vk e }
        else
          -- `throw policy_error(...)` — immediately caught below: break
          { st with evict := e }

/-- `policy_based_cache::put` (cache.hpp, lines 667-687), with
`evict_if_necessary_for_insertion` inlined (lines 795-804). -/
def pb_put (eo : EvictionOps K E) (co : CapacityOps C) (k : K) (v : V)
    (st : PBCache K V E A C) : PBCache K V E A C :=
  let isNewKey := (mlookup st.storage k).isNone
  if isNewKey then
    let st1 :=
      if co.needsEviction st.cap st.storage.length then
        pb_evict_entries eo (co.evictionCount st.cap st.storage.length) st
      else st
    { st1 with storage := mset st1.storage k v, evict := eo.onInsert k st1.evict }
  else
    { st with storage := mset st.storage k v, evict := eo.onUpdate k st.evict }

/-- `policy_based_cache::get` (cache.hpp, lines 699-719); `none` models the
thrown `std::out_of_range` (*not-found*). -/
def pb_get (eo : EvictionOps K E) (ao : AccessOps K A) (k : K)
    (st : PBCache K V E A C) : Option V × PBCache K V E A C :=
  match mlookup st.storage k with
  | some v =>
    let p := ao.onAccess k st.acc
    let e := if p.1 then eo.onAccess k st.evict else st.evict
    (some v, { st with acc := p.2, evict := e })
  | none =>
    let p := ao.onMiss k st.acc
    (none, { st with acc := p.2 })

/-- `policy_based_cache::contains`. -/
def pb_contains (k : K) (st : PBCache K V E A C) : Bool := (mlookup st.storage k).isSome

/-- `policy_based_cache::size`. -/
def pb_size (st : PBCache K V E A C) : Nat := st.storage.length

/-- `policy_based_cache::capacity`. -/
def pb_capacity (co : CapacityOps C) (st : PBCache K V E A C) : Nat := co.capacity st.cap

/-- `policy_based_cache::erase`. -/
def pb_erase (eo : EvictionOps K E) (k : K) (st : PBCache K V E A C) :
    Bool × PBCache K V E A C :=
  if (mlookup st.storage k).isSome then
    (true, { st with storage := merase st.storage k, evict := eo.removeKey k st.evict })
  else (false, st)

/-- `policy_based_cache::set_capacity` with
`evict_if_necessary_for_capacity_change` inlined (cache.hpp, lines 758-762 and
809-818). -/
def pb_set_capacity (eo : EvictionOps K E) (co : CapacityOps C) (n : Nat)
    (st : PBCache K V E A C) : PBCache K V E A C :=
  let st1 : PBCache K V E A C := { st with cap := co.setCapacity n st.cap }
  if co.needsEviction st1.cap st1.storage.length then
    pb_evict_entries eo (co.evictionCount st1.cap st1.storage.length) st1
  else st1

/-- `policy_based_cache::clear`. -/
def pb_clear (eo : EvictionOps K E) (st : PBCache K V E A C) : PBCache K V E A C :=
  { st with storage := [], evict := eo.clearAll st.evict }

/-! ### Concrete policy wirings (all_policies.hpp / the `make_*` factories) -/

/-- The LRU eviction policy packaged for the facade. -/
def lruOps : EvictionOps K (List K) where
  onAccess := lru_on_access
  onInsert := lru_on_insert
  onUpdate := lru_on_update
  selectVictim := fun l => (lru_select_victim l, l)
  removeKey := lru_remove_key
  clearAll := fun _ => []

/-- The FIFO eviction policy packaged for the facade. -/
def fifoOps : EvictionOps K (FifoState K) where
  onAccess := fifo_on_access
  onInsert := fifo_on_insert
  onUpdate := fifo_on_update
  selectVictim := fifo_select_victim
  removeKey := fifo_remove_key
  clearAll := fifo_clear

/-- The RANDOM eviction policy packaged for the facade (`clear` does not reset
the ambient PRNG stream). -/
def randOps : EvictionOps K (RandState K) where
  onAccess := fun _ st => st
  onInsert := rand_on_insert
  onUpdate := fun _ st => st
  selectVictim := rand_select_victim
  removeKey := rand_remove_key
  clearAll := fun st => { st with keys := [] }

/-- `update_on_access_policy`: stateless, always `true`. -/
def updateOnAccessOps : AccessOps K Unit where
  onAccess := fun _ a => (true, a)
  onMiss := fun _ a => (true, a)

/-- `no_update_on_access_policy`: stateless, always `false` on hits. -/
def noUpdateOnAccessOps : AccessOps K Unit where
  onAccess := fun _ a => (false, a)
  onMiss := fun _ a => (true, a)

/-- `fixed_capacity_policy` packaged for the facade. -/
def fixedCapOps : CapacityOps Nat where
  capacity := fun n => n
  setCapacity := fun n _ => n
  needsEviction := fixed_needs_eviction
  evictionCount := fixed_eviction_count

/-- The cache type produced by `make_lru_cache` (LRU eviction, hash storage,
update-on-access, fixed capacity). -/
abbrev LruCache (K V : Type) := PBCache K V (List K) Unit Nat

/-- A freshly constructed `make_lru_cache(n)`. -/
def lruCacheInit (n : Nat) : LruCache K V := ⟨[], [], (), n⟩

/-- The cache type produced by `make_fifo_cache` (FIFO eviction, hash storage,
no-update-on-access, fixed capacity). -/
abbrev FifoCache (K V : Type) := PBCache K V (FifoState K) Unit Nat

/-- A freshly constructed `make_fifo_cache(n)`. -/
def fifoCacheInit (n : Nat) : FifoCache K V := ⟨[], ⟨[], []⟩, (), n⟩

/-- The RANDOM-composed cache (random eviction, hash storage,
no-update-on-access, fixed capacity); carries the ambient PRNG stream. -/
abbrev RandCache (K V : Type) := PBCache K V (RandState K) Unit Nat

/-- A RANDOM-composed cache right after construction; `stream` is the sequence
of values `std::rand()` will produce, determined by the `srand(time(nullptr))`
call in the policy constructor. -/
def randCacheInit (n : Nat) (stream : List Nat) : RandCache K V := ⟨[], ⟨[], stream⟩, (), n⟩

/-! ### Public operation sequences on a composed cache -/

/-- One public cache operation. -/
inductive CacheOp (K V : Type) where
  | put (k : K) (v : V)
  | get (k : K)
  | contains (k : K)
  | erase (k : K)
  | setCapacity (n : Nat)
  | clear
deriving DecidableEq

/-- Apply one public operation to the LRU-composed cache. -/
def lru_apply_op (st : LruCache K V) : CacheOp K V → LruCache K V
  | .put k v => pb_put lruOps fixedCapOps k v st
  | .get k => (pb_get lruOps updateOnAccessOps k st).2
  | .contains _ => st
  | .erase k => (pb_erase lruOps k st).2
  | .setCapacity n => pb_set_capacity lruOps fixedCapOps n st
  | .clear => pb_clear lruOps st

/-- Run a sequence of public operations on `make_lru_cache(n)`. -/
def lru_run (n : Nat) (ops : List (CacheOp K V)) : LruCache K V :=
  ops.foldl lru_apply_op (lruCacheInit n)

/-- Apply one public operation to the RANDOM-composed cache. -/
def rand_apply_op (st : RandCache K V) : CacheOp K V → RandCache K V
  | .put k v => pb_put randOps fixedCapOps k v st
  | .get k => (pb_get randOps noUpdateOnAccessOps k st).2
  | .contains _ => st
  | .erase k => (pb_erase randOps k st).2
  | .setCapacity n => pb_set_capacity randOps fixedCapOps n st
  | .clear => pb_clear randOps st

/-- Run a sequence of public operations on a RANDOM-composed cache whose
ambient PRNG stream is `stream`. -/
def rand_run (n : Nat) (stream : List Nat) (ops : List (CacheOp K V)) : RandCache K V :=
  ops.foldl rand_apply_op (randCacheInit n stream)

/-! ### The legacy template-specialization LFU cache
(`cache<key_t, value_t, algorithm::lfu>`, cache.hpp lines 210-316) -/

/-- State of the legacy LFU cache: `m_map : key ↦ (value, freq)`,
`m_freq_map : freq ↦ list of keys` (a sorted `std::map`), `m_capacity`. -/
structure LegacyLfu (K V : Type) where
  map : List (K × (V × Nat))
  freqMap : List (Nat × List K)
  capacity : Nat
deriving DecidableEq

/-- `cache<..., algorithm::lfu>::size`. -/
def legacy_lfu_size (c : LegacyLfu K V) : Nat := c.map.length

/-- `cache<..., algorithm::lfu>::contains`. -/
def legacy_lfu_contains (c : LegacyLfu K V) (k : K) : Bool := (mlookup c.map k).isSome

/-! ### Consistency invariant of the LRU-composed cache

Spec invariants (2) and (5): storage and the eviction policy track the same
key set, each key once. -/

/-- Key agreement between storage and the LRU eviction policy. -/
def LruInv (st : LruCache K V) : Prop :=
  st.evict.Nodup ∧ (mkeys st.storage).Nodup ∧
  (∀ k, k ∈ st.evict ↔ (mlookup st.storage k).isSome) ∧
  st.evict.length = st.storage.length

theorem exists_getLast? {α : Type} : ∀ (l : List α), l ≠ [] → ∃ a, l.getLast? = some a
  | [x], _ => ⟨x, rfl⟩
  | x :: y :: ys, _ => by
    obtain ⟨a, ha⟩ := exists_getLast? (y :: ys) (by simp)
    exact ⟨a, by rw [List.getLast?_cons_cons]; exact ha⟩

theorem getLast?_mem_of_eq {α : Type} {l : List α} {a : α}
    (h : l.getLast? = some a) : a ∈ l := by
  induction l with
  | nil => simp at h
  | cons hd tl ih =>
    cases tl with
    | nil =>
      simp [List.getLast?] at h
      simp [h]
    | cons b tb =>
      rw [List.getLast?_cons_cons] at h
      exact List.mem_cons_of_mem hd (ih h)

/-- Behaviour of the eviction loop on a consistent LRU-composed cache: it
removes exactly `min count size` entries, preserves consistency and the
capacity, and introduces no new keys. -/
theorem lru_evict_entries_spec (c : Nat) (st : LruCache K V) (h : LruInv st) :
    LruInv (pb_evict_entries lruOps c st) ∧
    pb_size (pb_evict_entries lruOps c st) = pb_size st - min c (pb_size st) ∧
    (pb_evict_entries lruOps c st).cap = st.cap ∧
    (∀ a, mlookup st.storage a = none →
      mlookup (pb_evict_entries lruOps c st).storage a = none) := by
  induction c generalizing st with
  | zero =>
    exact ⟨h, by simp [pb_evict_entries, pb_size], rfl, fun a ha => ha⟩
  | succ n ih =>
    by_cases hemp : st.storage.isEmpty
    · have hz : st.storage.length = 0 := by
        cases hst : st.storage with
        | nil => simp
        | cons x xs => rw [hst] at hemp; simp at hemp
      have hid : pb_evict_entries lruOps (n + 1) st = st := by
        simp [pb_evict_entries, hemp]
      rw [hid]
      exact ⟨h, by simp [pb_size, hz], rfl, fun a ha => ha⟩
    · obtain ⟨hnd, hknd, hmem, hlen⟩ := h
      have hspos : 0 < st.storage.length := by
        cases hst : st.storage with
        | nil => rw [hst] at hemp; simp at hemp
        | cons x xs => simp [hst]
      have hev : st.evict ≠ [] := by
        intro hh
        rw [hh] at hlen
        simp at hlen
        omega
      obtain ⟨vk, hvk⟩ := exists_getLast? st.evict hev
      have hvkmem : vk ∈ st.evict := getLast?_mem_of_eq hvk
      have hvkst : (mlookup st.storage vk).isSome := (hmem vk).mp hvkmem
      have hstep : pb_evict_entries lruOps (n + 1) st =
          pb_evict_entries lruOps n
            { st with storage := merase st.storage vk,
                      evict := lru_remove_key vk st.evict } := by
        simp [pb_evict_entries, hemp, lruOps, lru_select_victim, hvk, hvkst]
      set st' : LruCache K V :=
        { st with storage := merase st.storage vk,
                  evict := lru_remove_key vk st.evict } with hst'
      have hrm : lru_remove_key vk st.evict = st.evict.erase vk := by
        simp [lru_remove_key, hvkmem]
      have hlen' : (merase st.storage vk).length + 1 = st.storage.length :=
        length_merase_present hvkst
      have hinv' : LruInv st' := by
        refine ⟨?_, mkeys_nodup_merase hknd, ?_, ?_⟩
        · rw [hst']; simpa [hrm] using hnd.erase vk
        · intro a
          by_cases hav : a = vk
          · subst hav
            simp only [hst', hrm]
            constructor
            · intro ha
              exact absurd (List.Nodup.mem_erase_iff hnd |>.mp ha).1 (by simp)
            · intro ha
              rw [mlookup_merase_self hknd] at ha
              simp at ha
          · simp only [hst', hrm]
            rw [List.Nodup.mem_erase_iff hnd]
            rw [mlookup_merase_of_ne st.storage hav]
            exact ⟨fun hp => (hmem a).mp hp.2, fun hp => ⟨hav, (hmem a).mpr hp⟩⟩
        · have her : (st.evict.erase vk).length = st.evict.length - 1 :=
            List.length_erase_of_mem hvkmem
          simp only [hst', hrm]
          omega
      obtain ⟨i1, i2, i3, i4⟩ := ih st' hinv'
      refine ⟨by rwa [hstep], ?_, by rwa [hstep], ?_⟩
      · rw [hstep, i2]
        have hsz : pb_size st' + 1 = pb_size st := by
          simpa [hst', pb_size] using hlen'
        simp only [Nat.min_def]
        split_ifs <;> omega
      · intro a ha
        rw [hstep]
        exact i4 a (mlookup_merase_none ha)

/-- Cumulative run invariant for the LRU-composed cache: consistency plus the
(corrected) size bound `size ≤ max capacity 1`. -/
def LruRunInv (st : LruCache K V) : Prop :=
  LruInv st ∧ pb_size st ≤ max st.cap 1

theorem mlookup_mset_isSome_of_present {l : List (K × V)} {k : K} (v : V) (a : K)
    (hk : (mlookup l k).isSome) :
    (mlookup (mset l k v) a).isSome = (mlookup l a).isSome := by
  by_cases hak : a = k
  · subst hak
    simp [mlookup_mset_self, hk]
  · rw [mlookup_mset_of_ne l v hak]

/-- `put` preserves the run invariant (and never touches the capacity). -/
theorem lru_put_preserves (st : LruCache K V) (k : K) (v : V) (h : LruRunInv st) :
    LruRunInv (pb_put lruOps fixedCapOps k v st) ∧
    (pb_put lruOps fixedCapOps k v st).cap = st.cap := by
  obtain ⟨⟨hnd, hknd, hmem, hlen⟩, hbound⟩ := h
  simp only [pb_size] at hbound
  have hmaxc := Nat.le_max_left st.cap 1
  have hmax1 := Nat.le_max_right st.cap 1
  by_cases hnew : (mlookup st.storage k).isNone
  · have hkn : mlookup st.storage k = none := by
      cases hx : mlookup st.storage k
      · rfl
      · rw [hx] at hnew; simp at hnew
    by_cases hne : fixed_needs_eviction st.cap st.storage.length
    · -- new key, eviction needed
      have hcs : st.cap ≤ st.storage.length := by
        simpa [fixed_needs_eviction] using hne
      obtain ⟨hinv1, hsz1, hcap1, habs1⟩ :=
        lru_evict_entries_spec (fixed_eviction_count st.cap st.storage.length) st
          ⟨hnd, hknd, hmem, hlen⟩
      set st1 := pb_evict_entries lruOps (fixed_eviction_count st.cap st.storage.length) st
        with hst1
      have hput : pb_put lruOps fixedCapOps k v st =
          { st1 with storage := mset st1.storage k v,
                     evict := lru_on_insert k st1.evict } := by
        simp [pb_put, hnew, fixedCapOps, lruOps, hne, hst1]
      obtain ⟨hnd1, hknd1, hmem1, hlen1⟩ := hinv1
      have hk1 : mlookup st1.storage k = none := habs1 k hkn
      have hsznew : (mset st1.storage k v).length = st1.storage.length + 1 :=
        length_mset_absent v hk1
      have hkev : k ∉ st1.evict := fun hc => by
        have := (hmem1 k).mp hc
        rw [hk1] at this
        simp at this
      rw [hput]
      refine ⟨⟨⟨?_, ?_, ?_, ?_⟩, ?_⟩, ?_⟩
      · show (lru_on_insert k st1.evict).Nodup
        simpa [lru_on_insert] using ⟨hkev, hnd1⟩
      · show (mkeys (mset st1.storage k v)).Nodup
        exact mkeys_nodup_mset v hknd1
      · intro a
        show a ∈ lru_on_insert k st1.evict ↔ (mlookup (mset st1.storage k v) a).isSome
        simp only [lru_on_insert, List.mem_cons]
        by_cases hak : a = k
        · subst hak
          simp [mlookup_mset_self]
        · rw [mlookup_mset_of_ne st1.storage v hak]
          simp [hak, hmem1 a]
      · show (lru_on_insert k st1.evict).length = (mset st1.storage k v).length
        simp only [lru_on_insert, List.length_cons]
        rw [hsznew, hlen1]
      · show (mset st1.storage k v).length ≤ max st1.cap 1
        rw [hsznew, hcap1]
        have hcnt : fixed_eviction_count st.cap st.storage.length =
            st.storage.length - st.cap + 1 := by
          simp [fixed_eviction_count, hcs]
        simp only [pb_size] at hsz1
        rw [hcnt] at hsz1
        simp only [Nat.min_def] at hsz1
        split_ifs at hsz1 <;> omega
      · show st1.cap = st.cap
        exact hcap1
    · -- new key, room available
      have hcs : st.storage.length < st.cap := by
        simp [fixed_needs_eviction] at hne
        exact hne
      have hput : pb_put lruOps fixedCapOps k v st =
          { st with storage := mset st.storage k v,
                    evict := lru_on_insert k st.evict } := by
        simp [pb_put, hnew, fixedCapOps, lruOps, hne]
      have hkev : k ∉ st.evict := fun hc => by
        have := (hmem k).mp hc
        rw [hkn] at this
        simp at this
      have hsznew : (mset st.storage k v).length = st.storage.length + 1 :=
        length_mset_absent v hkn
      rw [hput]
      refine ⟨⟨⟨?_, ?_, ?_, ?_⟩, ?_⟩, ?_⟩
      · show (lru_on_insert k st.evict).Nodup
        simpa [lru_on_insert] using ⟨hkev, hnd⟩
      · show (mkeys (mset st.storage k v)).Nodup
        exact mkeys_nodup_mset v hknd
      · intro a
        show a ∈ lru_on_insert k st.evict ↔ (mlookup (mset st.storage k v) a).isSome
        simp only [lru_on_insert, List.mem_cons]
        by_cases hak : a = k
        · subst hak
          simp [mlookup_mset_self]
        · rw [mlookup_mset_of_ne st.storage v hak]
          simp [hak, hmem a]
      · show (lru_on_insert k st.evict).length = (mset st.storage k v).length
        simp only [lru_on_insert, List.length_cons]
        rw [hsznew, hlen]
      · show (mset st.storage k v).length ≤ max st.cap 1
        rw [hsznew]
        omega
      · show st.cap = st.cap
        rfl
  · -- existing key: update in place
    have hks : (mlookup st.storage k).isSome := by
      cases hx : mlookup st.storage k
      · rw [hx] at hnew; simp at hnew
      · simp
    have hput : pb_put lruOps fixedCapOps k v st =
        { st with storage := mset st.storage k v,
                  evict := lru_on_update k st.evict } := by
      simp [pb_put, hnew, lruOps]
    have hkev : k ∈ st.evict := (hmem k).mpr hks
    have hupd : lru_on_update k st.evict = k :: st.evict.erase k := by
      simp [lru_on_update, lru_on_access, hkev]
    have hsznew : (mset st.storage k v).length = st.storage.length :=
      length_mset_present v hks
    have hkner : k ∉ st.evict.erase k := fun hc =>
      absurd (List.Nodup.mem_erase_iff hnd |>.mp hc).1 (by simp)
    rw [hput]
    refine ⟨⟨⟨?_, ?_, ?_, ?_⟩, ?_⟩, ?_⟩
    · show (lru_on_update k st.evict).Nodup
      rw [hupd]
      simpa using ⟨hkner, hnd.erase k⟩
    · show (mkeys (mset st.storage k v)).Nodup
      exact mkeys_nodup_mset v hknd
    · intro a
      show a ∈ lru_on_update k st.evict ↔ (mlookup (mset st.storage k v) a).isSome
      rw [hupd, mlookup_mset_isSome_of_present v a hks]
      simp only [List.mem_cons]
      by_cases hak : a = k
      · subst hak
        simp [hks]
      · rw [List.Nodup.mem_erase_iff hnd]
        simp [hak, hmem a]
    · show (lru_on_update k st.evict).length = (mset st.storage k v).length
      rw [hupd, hsznew]
      simp only [List.length_cons]
      rw [List.length_erase_of_mem hkev]
      have : 1 ≤ st.evict.length := List.length_pos.mpr (by
        intro hc
        rw [hc] at hkev
        simp at hkev)
      omega
    · show (mset st.storage k v).length ≤ max st.cap 1
      rw [hsznew]
      exact hbound
    · show st.cap = st.cap
      rfl

/-- Every public operation preserves the run invariant. -/
theorem lru_apply_op_preserves (st : LruCache K V) (op : CacheOp K V)
    (h : LruRunInv st) : LruRunInv (lru_apply_op st op) := by
  obtain ⟨⟨hnd, hknd, hmem, hlen⟩, hbound⟩ := h
  simp only [pb_size] at hbound
  have hmaxc := Nat.le_max_left st.cap 1
  have hmax1 := Nat.le_max_right st.cap 1
  cases op with
  | put k v =>
    exact (lru_put_preserves st k v ⟨⟨hnd, hknd, hmem, hlen⟩, hbound⟩).1
  | get k =>
    cases hx : mlookup st.storage k with
    | none =>
      simpa [lru_apply_op, pb_get, hx] using ⟨⟨hnd, hknd, hmem, hlen⟩, hbound⟩
    | some v =>
      have hks : (mlookup st.storage k).isSome := by simp [hx]
      have hkev : k ∈ st.evict := (hmem k).mpr hks
      have hkner : k ∉ st.evict.erase k := fun hc =>
        absurd (List.Nodup.mem_erase_iff hnd |>.mp hc).1 (by simp)
      have hres : lru_apply_op st (.get k) =
          { st with evict := k :: st.evict.erase k } := by
        simp [lru_apply_op, pb_get, hx, updateOnAccessOps, lruOps, lru_on_access, hkev]
      rw [hres]
      refine ⟨⟨?_, ?_, ?_, ?_⟩, ?_⟩
      · show (k :: st.evict.erase k).Nodup
        simpa using ⟨hkner, hnd.erase k⟩
      · show (mkeys st.storage).Nodup
        exact hknd
      · intro a
        show a ∈ k :: st.evict.erase k ↔ (mlookup st.storage a).isSome
        simp only [List.mem_cons]
        by_cases hak : a = k
        · subst hak
          simp [hks]
        · rw [List.Nodup.mem_erase_iff hnd]
          simp [hak, hmem a]
      · show (k :: st.evict.erase k).length = st.storage.length
        simp only [List.length_cons]
        rw [List.length_erase_of_mem hkev]
        have : 1 ≤ st.evict.length := List.length_pos.mpr (by
          intro hc
          rw [hc] at hkev
          simp at hkev)
        omega
      · show st.storage.length ≤ max st.cap 1
        exact hbound
  | contains k =>
    simpa [lru_apply_op] using ⟨⟨hnd, hknd, hmem, hlen⟩, hbound⟩
  | erase k =>
    by_cases hks : (mlookup st.storage k).isSome
    · have hkev : k ∈ st.evict := (hmem k).mpr hks
      have hres : lru_apply_op st (.erase k) =
          { st with storage := merase st.storage k,
                    evict := st.evict.erase k } := by
        simp [lru_apply_op, pb_erase, hks, lruOps, lru_remove_key, hkev]
      rw [hres]
      have hsz : (merase st.storage k).length + 1 = st.storage.length :=
        length_merase_present hks
      refine ⟨⟨?_, ?_, ?_, ?_⟩, ?_⟩
      · show (st.evict.erase k).Nodup
        exact hnd.erase k
      · show (mkeys (merase st.storage k)).Nodup
        exact mkeys_nodup_merase hknd
      · intro a
        show a ∈ st.evict.erase k ↔ (mlookup (merase st.storage k) a).isSome
        by_cases hak : a = k
        · subst hak
          rw [mlookup_merase_self hknd]
          simp only [Option.isSome_none, Bool.false_eq_true, iff_false]
          intro hc
          exact absurd (List.Nodup.mem_erase_iff hnd |>.mp hc).1 (by simp)
        · rw [List.Nodup.mem_erase_iff hnd, mlookup_merase_of_ne st.storage hak]
          simp [hak, hmem a]
      · show (st.evict.erase k).length = (merase st.storage k).length
        rw [List.length_erase_of_mem hkev]
        omega
      · show (merase st.storage k).length ≤ max st.cap 1
        omega
    · simpa [lru_apply_op, pb_erase, hks] using ⟨⟨hnd, hknd, hmem, hlen⟩, hbound⟩
  | setCapacity n =>
    have hset : pb_set_capacity lruOps fixedCapOps n st =
        (if fixed_needs_eviction n st.storage.length then
          pb_evict_entries lruOps (fixed_eviction_count n st.storage.length)
            { st with cap := n }
        else { st with cap := n }) := by
      by_cases hne : fixed_needs_eviction n st.storage.length <;>
        simp [pb_set_capacity, fixedCapOps, hne]
    by_cases hne : fixed_needs_eviction n st.storage.length
    · have hcs : n ≤ st.storage.length := by
        simpa [fixed_needs_eviction] using hne
      obtain ⟨hinv1, hsz1, hcap1, _⟩ :=
        lru_evict_entries_spec (fixed_eviction_count n st.storage.length)
          { st with cap := n } ⟨hnd, hknd, hmem, hlen⟩
      have hres : lru_apply_op st (.setCapacity n) =
          pb_evict_entries lruOps (fixed_eviction_count n st.storage.length)
            { st with cap := n } := by
        simp [lru_apply_op, hset, hne]
      rw [hres]
      refine ⟨hinv1, ?_⟩
      have hcnt : fixed_eviction_count n st.storage.length =
          st.storage.length - n + 1 := by
        simp [fixed_eviction_count, hcs]
      have hcap1' : (pb_evict_entries lruOps (fixed_eviction_count n st.storage.length)
          { st with cap := n }).cap = n := hcap1
      rw [hcap1']
      have hmn := Nat.le_max_left n 1
      have hm1 := Nat.le_max_right n 1
      have hsz1' : (pb_evict_entries lruOps (fixed_eviction_count n st.storage.length)
          { st with cap := n } : LruCache K V).storage.length =
          st.storage.length -
            min (fixed_eviction_count n st.storage.length) st.storage.length := hsz1
      show (pb_evict_entries lruOps (fixed_eviction_count n st.storage.length)
          { st with cap := n } : LruCache K V).storage.length ≤ max n 1
      rw [hsz1', hcnt]
      rcases Nat.le_total (st.storage.length - n + 1) st.storage.length with hmin | hmin
      · rw [Nat.min_eq_left hmin]
        omega
      · rw [Nat.min_eq_right hmin]
        omega
    · have hcs : st.storage.length < n := by
        simp [fixed_needs_eviction] at hne
        exact hne
      have hres : lru_apply_op st (.setCapacity n) = { st with cap := n } := by
        simp [lru_apply_op, hset, hne]
      rw [hres]
      refine ⟨⟨hnd, hknd, hmem, hlen⟩, ?_⟩
      show st.storage.length ≤ max n 1
      have hmn := Nat.le_max_left n 1
      omega
  | clear =>
    refine ⟨⟨?_, ?_, ?_, ?_⟩, ?_⟩ <;>
      simp [lru_apply_op, pb_clear, lruOps, mkeys, mlookup, pb_size]

theorem lru_foldl_inv (ops : List (CacheOp K V)) (st : LruCache K V)
    (h : LruRunInv st) : LruRunInv (ops.foldl lru_apply_op st) := by
  induction ops generalizing st with
  | nil => simpa using h
  | cons op rest ih =>
    rw [List.foldl_cons]
    exact ih _ (lru_apply_op_preserves _ op h)

/-- The run invariant holds in every state reachable from a fresh cache. -/
theorem lru_run_inv (n : Nat) (ops : List (CacheOp K V)) : LruRunInv (lru_run n ops) := by
  refine lru_foldl_inv ops _ ?_
  refine ⟨⟨?_, ?_, ?_, ?_⟩, ?_⟩ <;>
    simp [lruCacheInit, mkeys, mlookup, pb_size]

/-- The eviction loop never touches the capacity policy (any wiring). -/
theorem pb_evict_entries_cap (eo : EvictionOps K E) (c : Nat)
    (st : PBCache K V E A C) : (pb_evict_entries eo c st).cap = st.cap := by
  induction c generalizing st with
  | zero => rfl
  | succ n ih =>
    by_cases hemp : st.storage.isEmpty
    · simp [pb_evict_entries, hemp]
    · simp only [pb_evict_entries, hemp]
      cases hsel : eo.selectVictim st.evict with
      | mk ov e =>
        cases ov with
        | none => simp
        | some vk =>
          by_cases hvs : (mlookup st.storage vk).isSome
          · simpa [hvs] using ih _
          · simp [hvs]

/-- After any `put`, the key just written is present with the written value
(both the fresh-insert branch and the overwrite branch end in the same
storage write). -/
theorem pb_put_lookup_self (eo : EvictionOps K E) (co : CapacityOps C)
    (k : K) (v : V) (st : PBCache K V E A C) :
    mlookup (pb_put eo co k v st).storage k = some v := by
  by_cases hnew : (mlookup st.storage k).isNone
  · by_cases hne : co.needsEviction st.cap st.storage.length <;>
      simp [pb_put, hnew, hne, mlookup_mset_self]
  · simp [pb_put, hnew, mlookup_mset_self]

/-- `put` on a key already in storage takes the update path. -/
theorem pb_put_update_eq (eo : EvictionOps K E) (co : CapacityOps C)
    (k : K) (v : V) (st : PBCache K V E A C)
    (h : (mlookup st.storage k).isSome) :
    pb_put eo co k v st =
      { st with storage := mset st.storage k v, evict := eo.onUpdate k st.evict } := by
  have hnew : ¬ (mlookup st.storage k).isNone = true := by
    cases hx : mlookup st.storage k
    · rw [hx] at h; simp at h
    · simp
  simp [pb_put, hnew]

/-- `put` never touches the capacity state. -/
theorem pb_put_cap (eo : EvictionOps K E) (co : CapacityOps C)
    (k : K) (v : V) (st : PBCache K V E A C) :
    (pb_put eo co k v st).cap = st.cap := by
  by_cases hnew : (mlookup st.storage k).isNone
  · by_cases hne : co.needsEviction st.cap st.storage.length
    · have h1 := pb_evict_entries_cap eo (co.evictionCount st.cap st.storage.length) st
      simp [pb_put, hnew, hne, h1]
    · simp [pb_put, hnew, hne]
  · simp [pb_put, hnew]

theorem lru_apply_op_cap (st : LruCache K V) (op : CacheOp K V)
    (h : ∀ m : Nat, op ≠ .setCapacity m) : (lru_apply_op st op).cap = st.cap := by
  cases op with
  | put k v => exact pb_put_cap lruOps fixedCapOps k v st
  | get k =>
    cases hx : mlookup st.storage k <;>
      simp [lru_apply_op, pb_get, hx]
  | contains k => rfl
  | erase k =>
    by_cases hks : (mlookup st.storage k).isSome <;>
      simp [lru_apply_op, pb_erase, hks]
  | setCapacity m => exact absurd rfl (h m)
  | clear => rfl

/-- One eviction-policy call, as issued by the cache facade. -/
inductive LfuOp (K : Type) where
  | insert (k : K)
  | access (k : K)
  | update (k : K)
  | remove (k : K)
deriving DecidableEq

/-- Apply one policy call to the LFU state. -/
def lfu_apply (st : LfuState K) : LfuOp K → LfuState K
  | .insert k => lfu_on_insert k st
  | .access k => lfu_on_access k st
  | .update k => lfu_on_update k st
  | .remove k => lfu_remove_key k st

/-- Ghost semantics: the promotion-order list.  A (re-)promotion moves the key
to the back; the list order is the order of last promotion (oldest first). -/
def promo_step (st : LfuState K) (p : List K) : LfuOp K → List K
  | .insert k => p ++ [k]
  | .access k => if (mlookup st.keyFreq k).isSome then p.erase k ++ [k] else p
  | .update k => if (mlookup st.keyFreq k).isSome then p.erase k ++ [k] else p
  | .remove k => if (mlookup st.keyFreq k).isSome then p.erase k else p

/-- One combined concrete/ghost step. -/
def lfu_step_g (s : LfuState K × List K) (op : LfuOp K) : LfuState K × List K :=
  (lfu_apply s.1 op, promo_step s.1 s.2 op)

/-- Run a call sequence from the freshly constructed (empty) policy. -/
def lfu_run_g (ops : List (LfuOp K)) : LfuState K × List K :=
  ops.foldl lfu_step_g (⟨[], []⟩, [])

/-- Well-formed call sequences: the facade calls `on_insert` only for keys the
policy does not track yet (it checks storage first; spec invariant (2)). -/
def lfu_wf_from (st : LfuState K) : List (LfuOp K) → Bool
  | [] => true
  | op :: rest =>
    (match op with
     | .insert k => (mlookup st.keyFreq k).isNone
     | _ => true) && lfu_wf_from (lfu_apply st op) rest

/-- Well-formedness from the initial empty policy. -/
def lfu_wf (ops : List (LfuOp K)) : Bool := lfu_wf_from (⟨[], []⟩ : LfuState K) ops

/-- Boolean test "key `a` currently has frequency `f`". -/
def freq_is (kf : List (K × Nat)) (f : Nat) (a : K) : Bool :=
  decide (mlookup kf a = some f)

theorem freq_is_iff {kf : List (K × Nat)} {f : Nat} {a : K} :
    freq_is kf f a = true ↔ mlookup kf a = some f := by
  simp [freq_is]

/-! ### Filter/erase commutation lemmas -/

theorem filter_erase_of_neg {q : K → Bool} {k : K} (h : ¬ q k = true) (l : List K) :
    (l.erase k).filter q = l.filter q := by
  induction l with
  | nil => simp
  | cons x xs ih =>
    by_cases hx : x = k
    · subst hx
      rw [List.erase_cons_head, List.filter_cons_of_neg h]
    · rw [List.erase_cons_tail (by simp [hx])]
      by_cases hq : q x = true
      · rw [List.filter_cons_of_pos hq, List.filter_cons_of_pos hq, ih]
      · rw [List.filter_cons_of_neg hq, List.filter_cons_of_neg hq, ih]

theorem filter_erase_comm {q : K → Bool} {k : K} {l : List K} (h : l.Nodup) :
    (l.erase k).filter q = (l.filter q).erase k := by
  induction l with
  | nil => simp
  | cons x xs ih =>
    simp only [List.nodup_cons] at h
    by_cases hx : x = k
    · subst hx
      rw [List.erase_cons_head]
      by_cases hq : q x = true
      · rw [List.filter_cons_of_pos hq, List.erase_cons_head]
      · rw [List.filter_cons_of_neg hq]
        rw [List.erase_of_not_mem (fun hc => h.1 (List.mem_of_mem_filter hc))]
    · rw [List.erase_cons_tail (by simp [hx])]
      by_cases hq : q x = true
      · rw [List.filter_cons_of_pos hq, List.filter_cons_of_pos hq]
        rw [List.erase_cons_tail (by simp [hx]), ih h.2]
      · rw [List.filter_cons_of_neg hq, List.filter_cons_of_neg hq, ih h.2]

/-! ### Lemmas on the sorted frequency-bucket map -/

theorem bucket_push_back_cons_lt {f g : Nat} {k : K} {l : List K}
    {rest : List (Nat × List K)} (h : f < g) :
    bucket_push_back f k ((g, l) :: rest) = (f, [k]) :: (g, l) :: rest := by
  simp [bucket_push_back, h]

theorem bucket_push_back_cons_eq {f : Nat} {k : K} {l : List K}
    {rest : List (Nat × List K)} :
    bucket_push_back f k ((f, l) :: rest) = (f, l ++ [k]) :: rest := by
  simp [bucket_push_back, lt_irrefl]

theorem bucket_push_back_cons_gt {f g : Nat} {k : K} {l : List K}
    {rest : List (Nat × List K)} (h : g < f) :
    bucket_push_back f k ((g, l) :: rest) = (g, l) :: bucket_push_back f k rest := by
  have h1 : ¬ f < g := by omega
  have h2 : ¬ f = g := by omega
  simp [bucket_push_back, h1, h2]

theorem bucket_erase_key_cons_ne {f g : Nat} {k : K} {l : List K}
    {rest : List (Nat × List K)} (h : f ≠ g) :
    bucket_erase_key f k ((g, l) :: rest) = (g, l) :: bucket_erase_key f k rest := by
  simp [bucket_erase_key, h]

theorem bucket_erase_key_cons_mem {f : Nat} {k : K} {l : List K}
    {rest : List (Nat × List K)} (hk : k ∈ l) :
    bucket_erase_key f k ((f, l) :: rest) =
      if l.erase k = [] then rest else (f, l.erase k) :: rest := by
  simp [bucket_erase_key, hk]

theorem bucket_erase_key_cons_not_mem {f : Nat} {k : K} {l : List K}
    {rest : List (Nat × List K)} (hk : k ∉ l) :
    bucket_erase_key f k ((f, l) :: rest) = (f, l) :: rest := by
  simp [bucket_erase_key, hk]

theorem mem_map_fst_bucket_push_back {g f : Nat} {k : K} {bs : List (Nat × List K)} :
    g ∈ (bucket_push_back f k bs).map Prod.fst ↔ g = f ∨ g ∈ bs.map Prod.fst := by
  induction bs with
  | nil => simp [bucket_push_back]
  | cons hd rest ih =>
    obtain ⟨h0, l0⟩ := hd
    rcases Nat.lt_trichotomy f h0 with h1 | h1 | h1
    · rw [bucket_push_back_cons_lt h1]
      simp [eq_comm, or_assoc]
    · subst h1
      rw [bucket_push_back_cons_eq]
      simp only [List.map_cons, List.mem_cons]
      constructor
      · rintro (hh | hh)
        · exact Or.inl hh
        · exact Or.inr (Or.inr hh)
      · rintro (hh | hh | hh)
        · exact Or.inl hh
        · exact Or.inl hh
        · exact Or.inr hh
    · rw [bucket_push_back_cons_gt h1]
      simp only [List.map_cons, List.mem_cons]
      rw [ih]
      constructor
      · rintro (hh | hh | hh)
        · exact Or.inr (Or.inl hh)
        · exact Or.inl hh
        · exact Or.inr (Or.inr hh)
      · rintro (hh | hh | hh)
        · exact Or.inr (Or.inl hh)
        · exact Or.inl hh
        · exact Or.inr (Or.inr hh)

theorem bucket_push_back_sorted {f : Nat} {k : K} {bs : List (Nat × List K)}
    (h : (bs.map Prod.fst).Pairwise (· < ·)) :
    ((bucket_push_back f k bs).map Prod.fst).Pairwise (· < ·) := by
  induction bs with
  | nil => simp [bucket_push_back]
  | cons hd rest ih =>
    obtain ⟨h0, l0⟩ := hd
    simp only [List.map_cons, List.pairwise_cons] at h
    rcases Nat.lt_trichotomy f h0 with h1 | h1 | h1
    · rw [bucket_push_back_cons_lt h1]
      simp only [List.map_cons, List.pairwise_cons]
      refine ⟨?_, h.1, h.2⟩
      intro x hx
      simp only [List.mem_cons] at hx
      rcases hx with hx | hx
      · omega
      · have := h.1 x hx
        omega
    · subst h1
      rw [bucket_push_back_cons_eq]
      simp only [List.map_cons, List.pairwise_cons]
      exact h
    · rw [bucket_push_back_cons_gt h1]
      simp only [List.map_cons, List.pairwise_cons]
      refine ⟨?_, ih h.2⟩
      intro x hx
      rcases (mem_map_fst_bucket_push_back).mp hx with hx | hx
      · omega
      · exact h.1 x hx

theorem bucket_push_back_nonempty {f : Nat} {k : K} {bs : List (Nat × List K)}
    (h : ∀ q ∈ bs, q.2 ≠ []) :
    ∀ q ∈ bucket_push_back f k bs, q.2 ≠ [] := by
  induction bs with
  | nil =>
    intro q hq
    simp only [bucket_push_back, List.mem_singleton] at hq
    subst hq
    simp
  | cons hd rest ih =>
    obtain ⟨h0, l0⟩ := hd
    intro q hq
    rcases Nat.lt_trichotomy f h0 with h1 | h1 | h1
    · rw [bucket_push_back_cons_lt h1] at hq
      simp only [List.mem_cons] at hq
      rcases hq with hq | hq | hq
      · subst hq; simp
      · subst hq; exact h _ (by simp)
      · exact h _ (by simp [hq])
    · subst h1
      rw [bucket_push_back_cons_eq] at hq
      simp only [List.mem_cons] at hq
      rcases hq with hq | hq
      · subst hq; simp
      · exact h _ (by simp [hq])
    · rw [bucket_push_back_cons_gt h1] at hq
      simp only [List.mem_cons] at hq
      rcases hq with hq | hq
      · subst hq; exact h _ (by simp)
      · exact ih (fun r hr => h r (by simp [hr])) _ hq

theorem bucket_push_back_content {f : Nat} {k : K} {bs : List (Nat × List K)}
    {Q : Nat → List K}
    (hs : (bs.map Prod.fst).Pairwise (· < ·))
    (hc : ∀ q ∈ bs, q.2 = Q q.1)
    (hnew : f ∉ bs.map Prod.fst → Q f = []) :
    ∀ q ∈ bucket_push_back f k bs,
      q.2 = (if q.1 = f then Q f ++ [k] else Q q.1) := by
  induction bs with
  | nil =>
    intro q hq
    simp only [bucket_push_back, List.mem_singleton] at hq
    subst hq
    simp [hnew (by simp)]
  | cons hd rest ih =>
    obtain ⟨h0, l0⟩ := hd
    simp only [List.map_cons, List.pairwise_cons] at hs
    intro q hq
    rcases Nat.lt_trichotomy f h0 with h1 | h1 | h1
    · rw [bucket_push_back_cons_lt h1] at hq
      simp only [List.mem_cons] at hq
      rcases hq with hq | hq | hq
      · subst hq
        simp only [if_pos rfl]
        have hf : Q f = [] := by
          refine hnew ?_
          simp only [List.map_cons, List.mem_cons]
          rintro (hh | hh)
          · omega
          · have := hs.1 f hh
            omega
        simp [hf]
      · subst hq
        rw [if_neg (by omega)]
        exact hc (h0, l0) (by simp)
      · have hq1 : q.1 ∈ rest.map Prod.fst := List.mem_map_of_mem Prod.fst hq
        have hlt := hs.1 q.1 hq1
        rw [if_neg (by omega)]
        exact hc q (by simp [hq])
    · subst h1
      rw [bucket_push_back_cons_eq] at hq
      simp only [List.mem_cons] at hq
      rcases hq with hq | hq
      · subst hq
        have hl0 : l0 = Q f := hc (f, l0) (by simp)
        simp [hl0]
      · have hq1 : q.1 ∈ rest.map Prod.fst := List.mem_map_of_mem Prod.fst hq
        have hlt := hs.1 q.1 hq1
        rw [if_neg (by omega)]
        exact hc q (by simp [hq])
    · rw [bucket_push_back_cons_gt h1] at hq
      simp only [List.mem_cons] at hq
      rcases hq with hq | hq
      · subst hq
        rw [if_neg (by omega)]
        exact hc (h0, l0) (by simp)
      · refine ih hs.2 (fun r hr => hc r (by simp [hr])) ?_ q hq
        intro hfr
        refine hnew ?_
        simp only [List.map_cons, List.mem_cons]
        rintro (hh | hh)
        · omega
        · exact hfr hh

theorem mem_map_fst_bucket_erase_key {g f : Nat} {k : K} {bs : List (Nat × List K)}
    (h : g ∈ (bucket_erase_key f k bs).map Prod.fst) : g ∈ bs.map Prod.fst := by
  induction bs with
  | nil => simpa [bucket_erase_key] using h
  | cons hd rest ih =>
    obtain ⟨h0, l0⟩ := hd
    by_cases h1 : f = h0
    · subst h1
      by_cases hk : k ∈ l0
      · rw [bucket_erase_key_cons_mem hk] at h
        by_cases he : l0.erase k = []
        · rw [if_pos he] at h
          simp only [List.map_cons, List.mem_cons]
          exact Or.inr h
        · rw [if_neg he] at h
          simpa using h
      · rw [bucket_erase_key_cons_not_mem hk] at h
        exact h
    · rw [bucket_erase_key_cons_ne h1] at h
      simp only [List.map_cons, List.mem_cons] at h ⊢
      rcases h with h | h
      · exact Or.inl h
      · exact Or.inr (ih h)

theorem bucket_erase_key_sorted {f : Nat} {k : K} {bs : List (Nat × List K)}
    (h : (bs.map Prod.fst).Pairwise (· < ·)) :
    ((bucket_erase_key f k bs).map Prod.fst).Pairwise (· < ·) := by
  induction bs with
  | nil => simpa [bucket_erase_key] using h
  | cons hd rest ih =>
    obtain ⟨h0, l0⟩ := hd
    simp only [List.map_cons, List.pairwise_cons] at h
    by_cases h1 : f = h0
    · subst h1
      by_cases hk : k ∈ l0
      · rw [bucket_erase_key_cons_mem hk]
        by_cases he : l0.erase k = []
        · rw [if_pos he]
          exact h.2
        · rw [if_neg he]
          simp only [List.map_cons, List.pairwise_cons]
          exact h
      · rw [bucket_erase_key_cons_not_mem hk]
        simp only [List.map_cons, List.pairwise_cons]
        exact h
    · rw [bucket_erase_key_cons_ne h1]
      simp only [List.map_cons, List.pairwise_cons]
      refine ⟨fun x hx => h.1 x (mem_map_fst_bucket_erase_key hx), ih h.2⟩

theorem bucket_erase_key_nonempty {f : Nat} {k : K} {bs : List (Nat × List K)}
    (h : ∀ q ∈ bs, q.2 ≠ []) :
    ∀ q ∈ bucket_erase_key f k bs, q.2 ≠ [] := by
  induction bs with
  | nil => intro q hq; simp [bucket_erase_key] at hq
  | cons hd rest ih =>
    obtain ⟨h0, l0⟩ := hd
    intro q hq
    by_cases h1 : f = h0
    · subst h1
      by_cases hk : k ∈ l0
      · rw [bucket_erase_key_cons_mem hk] at hq
        by_cases he : l0.erase k = []
        · rw [if_pos he] at hq
          exact h q (by simp [hq])
        · rw [if_neg he] at hq
          simp only [List.mem_cons] at hq
          rcases hq with hq | hq
          · subst hq; exact he
          · exact h q (by simp [hq])
      · rw [bucket_erase_key_cons_not_mem hk] at hq
        exact h q hq
    · rw [bucket_erase_key_cons_ne h1] at hq
      simp only [List.mem_cons] at hq
      rcases hq with hq | hq
      · subst hq; exact h _ (by simp)
      · exact ih (fun r hr => h r (by simp [hr])) q hq

theorem bucket_erase_key_content {f : Nat} {k : K} {bs : List (Nat × List K)}
    {Q : Nat → List K}
    (hs : (bs.map Prod.fst).Pairwise (· < ·))
    (hc : ∀ q ∈ bs, q.2 = Q q.1) :
    ∀ q ∈ bucket_erase_key f k bs,
      q.2 = (if q.1 = f then (Q f).erase k else Q q.1) := by
  induction bs with
  | nil => intro q hq; simp [bucket_erase_key] at hq
  | cons hd rest ih =>
    obtain ⟨h0, l0⟩ := hd
    simp only [List.map_cons, List.pairwise_cons] at hs
    have hl0 : l0 = Q h0 := hc (h0, l0) (by simp)
    intro q hq
    by_cases h1 : f = h0
    · subst h1
      by_cases hk : k ∈ l0
      · rw [bucket_erase_key_cons_mem hk] at hq
        by_cases he : l0.erase k = []
        · rw [if_pos he] at hq
          have hq1 : q.1 ∈ rest.map Prod.fst := List.mem_map_of_mem Prod.fst hq
          have hlt := hs.1 q.1 hq1
          rw [if_neg (by omega)]
          exact hc q (by simp [hq])
        · rw [if_neg he] at hq
          simp only [List.mem_cons] at hq
          rcases hq with hq | hq
          · subst hq
            simp [hl0]
          · have hq1 : q.1 ∈ rest.map Prod.fst := List.mem_map_of_mem Prod.fst hq
            have hlt := hs.1 q.1 hq1
            rw [if_neg (by omega)]
            exact hc q (by simp [hq])
      · rw [bucket_erase_key_cons_not_mem hk] at hq
        simp only [List.mem_cons] at hq
        rcases hq with hq | hq
        · subst hq
          have he : l0.erase k = l0 := List.erase_of_not_mem hk
          rw [if_pos rfl, ← hl0, he]
        · have hq1 : q.1 ∈ rest.map Prod.fst := List.mem_map_of_mem Prod.fst hq
          have hlt := hs.1 q.1 hq1
          rw [if_neg (by omega)]
          exact hc q (by simp [hq])
    · rw [bucket_erase_key_cons_ne h1] at hq
      simp only [List.mem_cons] at hq
      rcases hq with hq | hq
      · subst hq
        rw [if_neg (fun hh => h1 hh.symm)]
        exact hl0
      · exact ih hs.2 (fun r hr => hc r (by simp [hr])) q hq

theorem mem_map_fst_bucket_erase_key_of_ne {g f : Nat} {k : K}
    {bs : List (Nat × List K)} (hgf : g ≠ f) (h : g ∈ bs.map Prod.fst) :
    g ∈ (bucket_erase_key f k bs).map Prod.fst := by
  induction bs with
  | nil => simpa using h
  | cons hd rest ih =>
    obtain ⟨h0, l0⟩ := hd
    simp only [List.map_cons, List.mem_cons] at h
    by_cases h1 : f = h0
    · subst h1
      rcases h with h | h
      · exact absurd h.symm (fun hh => hgf hh.symm)
      · by_cases hk : k ∈ l0
        · rw [bucket_erase_key_cons_mem hk]
          by_cases he : l0.erase k = []
          · rw [if_pos he]
            exact h
          · rw [if_neg he]
            simp only [List.map_cons, List.mem_cons]
            exact Or.inr h
        · rw [bucket_erase_key_cons_not_mem hk]
          simp only [List.map_cons, List.mem_cons]
          exact Or.inr h
    · rw [bucket_erase_key_cons_ne h1]
      simp only [List.map_cons, List.mem_cons]
      rcases h with h | h
      · exact Or.inl h
      · exact Or.inr (ih h)

theorem mem_map_fst_bucket_erase_key_self {f : Nat} {k : K} {l : List K}
    {bs : List (Nat × List K)}
    (hs : (bs.map Prod.fst).Pairwise (· < ·))
    (hl : (f, l) ∈ bs) (hne : l.erase k ≠ []) :
    f ∈ (bucket_erase_key f k bs).map Prod.fst := by
  induction bs with
  | nil => simp at hl
  | cons hd rest ih =>
    obtain ⟨h0, l0⟩ := hd
    simp only [List.map_cons, List.pairwise_cons] at hs
    simp only [List.mem_cons] at hl
    by_cases h1 : f = h0
    · subst h1
      have hl0 : l0 = l := by
        rcases hl with hl | hl
        · exact (Prod.mk.injEq _ _ _ _ |>.mp hl.symm).2
        · have : f ∈ rest.map Prod.fst := List.mem_map_of_mem Prod.fst hl
          have := hs.1 f this
          omega
      subst hl0
      by_cases hk : k ∈ l0
      · rw [bucket_erase_key_cons_mem hk, if_neg hne]
        simp
      · rw [bucket_erase_key_cons_not_mem hk]
        simp
    · rcases hl with hl | hl
      · exact absurd (Prod.mk.injEq _ _ _ _ |>.mp hl.symm).1 (fun hh => h1 hh.symm)
      · rw [bucket_erase_key_cons_ne h1]
        simp only [List.map_cons, List.mem_cons]
        exact Or.inr (ih hs.2 hl)

/-! ### The reachable-state invariant of the LFU policy -/

/-- Invariant tying the LFU state to the ghost promotion list `p` (spec
invariant (4)): bucket frequencies are strictly sorted, buckets are non-empty,
each bucket `f` holds exactly the tracked keys of frequency `f` in promotion
order, and every tracked frequency has its bucket. -/
structure LfuGood (st : LfuState K) (p : List K) : Prop where
  pnd : p.Nodup
  knd : (mkeys st.keyFreq).Nodup
  memp : ∀ a, a ∈ p ↔ (mlookup st.keyFreq a).isSome
  sorted : (st.buckets.map Prod.fst).Pairwise (· < ·)
  nonemptyB : ∀ q ∈ st.buckets, q.2 ≠ []
  content : ∀ q ∈ st.buckets, q.2 = p.filter (freq_is st.keyFreq q.1)
  complete : ∀ a f, mlookup st.keyFreq a = some f → f ∈ st.buckets.map Prod.fst

theorem lfu_good_insert {st : LfuState K} {p : List K} {k : K}
    (h : LfuGood st p) (hk : mlookup st.keyFreq k = none) :
    LfuGood (lfu_on_insert k st) (p ++ [k]) := by
  obtain ⟨pnd, knd, memp, sorted, nonemptyB, content, complete⟩ := h
  have hkp : k ∉ p := fun hc => by
    have := (memp k).mp hc
    rw [hk] at this
    simp at this
  refine ⟨?_, ?_, ?_, ?_, ?_, ?_, ?_⟩
  · simp [List.nodup_append, pnd, hkp]
  · exact mkeys_nodup_mset 1 knd
  · intro a
    show a ∈ p ++ [k] ↔ (mlookup (mset st.keyFreq k 1) a).isSome
    by_cases hak : a = k
    · subst hak
      simp [mlookup_mset_self]
    · rw [mlookup_mset_of_ne _ 1 hak]
      simp [hak, memp a]
  · exact bucket_push_back_sorted sorted
  · exact bucket_push_back_nonempty nonemptyB
  · intro q hq
    show q.2 = (p ++ [k]).filter (freq_is (mset st.keyFreq k 1) q.1)
    have hnew : (1 : Nat) ∉ st.buckets.map Prod.fst →
        p.filter (freq_is st.keyFreq 1) = [] := by
      intro h1
      refine List.filter_eq_nil_iff.mpr ?_
      intro a ha hfa
      exact h1 (complete a 1 (freq_is_iff.mp hfa))
    have hstep := bucket_push_back_content (k := k)
      (Q := fun g => p.filter (freq_is st.keyFreq g)) sorted content hnew q hq
    have h1 : p.filter (freq_is (mset st.keyFreq k 1) q.1) =
        p.filter (freq_is st.keyFreq q.1) := by
      refine List.filter_congr ?_
      intro a ha
      have hak : a ≠ k := fun hc => hkp (hc ▸ ha)
      simp only [freq_is]
      rw [mlookup_mset_of_ne _ 1 hak]
    have h2 : [k].filter (freq_is (mset st.keyFreq k 1) q.1) =
        (if q.1 = 1 then [k] else []) := by
      by_cases hq1 : q.1 = 1
      · simp [List.filter, freq_is, mlookup_mset_self, hq1]
      · have hne : ¬ ((1 : Nat) = q.1) := fun hh => hq1 hh.symm
        simp [List.filter, freq_is, mlookup_mset_self, hq1, hne]
    rw [hstep, List.filter_append, h1, h2]
    by_cases hq1 : q.1 = 1 <;> simp [hq1]
  · intro a f ha
    have ha' : mlookup (mset st.keyFreq k 1) a = some f := ha
    show f ∈ (bucket_push_back 1 k st.buckets).map Prod.fst
    by_cases hak : a = k
    · subst hak
      rw [mlookup_mset_self] at ha'
      have hf1 : f = 1 := by
        injection ha' with hh
        omega
      exact mem_map_fst_bucket_push_back.mpr (Or.inl hf1)
    · rw [mlookup_mset_of_ne _ 1 hak] at ha'
      exact mem_map_fst_bucket_push_back.mpr (Or.inr (complete a f ha'))

theorem lfu_good_increment {st : LfuState K} {p : List K} {k : K}
    (h : LfuGood st p) :
    LfuGood (lfu_increment_frequency k st)
      (if (mlookup st.keyFreq k).isSome then p.erase k ++ [k] else p) := by
  obtain ⟨pnd, knd, memp, sorted, nonemptyB, content, complete⟩ := h
  cases hf : mlookup st.keyFreq k with
  | none =>
    have hid : lfu_increment_frequency k st = st := by
      simp [lfu_increment_frequency, hf]
    rw [hid]
    simpa using ⟨pnd, knd, memp, sorted, nonemptyB, content, complete⟩
  | some f =>
    have hkp : k ∈ p := (memp k).mpr (by simp [hf])
    have hsome : (mlookup st.keyFreq k).isSome := by simp [hf]
    have hinc : lfu_increment_frequency k st =
        { keyFreq := mset st.keyFreq k (f + 1),
          buckets := bucket_push_back (f + 1) k (bucket_erase_key f k st.buckets) } := by
      simp [lfu_increment_frequency, hf]
    rw [hinc]
    simp only [Option.isSome_some, if_true]
    have esorted := bucket_erase_key_sorted (f := f) (k := k) sorted
    have enonempty := bucket_erase_key_nonempty (f := f) (k := k) nonemptyB
    have econtent :
        ∀ q ∈ bucket_erase_key f k st.buckets,
          q.2 = (if q.1 = f then (p.filter (freq_is st.keyFreq f)).erase k
                 else p.filter (freq_is st.keyFreq q.1)) := by
      intro q hq
      exact bucket_erase_key_content (k := k)
        (Q := fun g => p.filter (freq_is st.keyFreq g)) sorted content q hq
    have hnew1 : (f + 1) ∉ (bucket_erase_key f k st.buckets).map Prod.fst →
        (if f + 1 = f then (p.filter (freq_is st.keyFreq f)).erase k
         else p.filter (freq_is st.keyFreq (f + 1))) = [] := by
      intro hnot
      have hnotbs : (f + 1) ∉ st.buckets.map Prod.fst := fun hc =>
        hnot (mem_map_fst_bucket_erase_key_of_ne (by omega) hc)
      rw [if_neg (by omega : ¬ f + 1 = f)]
      refine List.filter_eq_nil_iff.mpr ?_
      intro a ha hfa
      exact hnotbs (complete a (f + 1) (freq_is_iff.mp hfa))
    have pres := bucket_push_back_content (k := k)
      (Q := fun g => if g = f then (p.filter (freq_is st.keyFreq f)).erase k
            else p.filter (freq_is st.keyFreq g)) esorted econtent hnew1
    beta_reduce at pres
    have hmem_erase : ∀ a ∈ p.erase k, a ≠ k := by
      intro a ha hc
      subst hc
      exact absurd ((List.Nodup.mem_erase_iff pnd).mp ha).1 (by simp)
    refine ⟨?_, ?_, ?_, ?_, ?_, ?_, ?_⟩
    · simp only [List.nodup_append, List.nodup_cons, List.not_mem_nil,
        not_false_iff, List.nodup_nil, and_true, true_and]
      refine ⟨pnd.erase k, ?_⟩
      intro a ha
      simp only [List.mem_singleton]
      exact hmem_erase a ha
    · exact mkeys_nodup_mset (f + 1) knd
    · intro a
      show a ∈ p.erase k ++ [k] ↔ (mlookup (mset st.keyFreq k (f + 1)) a).isSome
      by_cases hak : a = k
      · subst hak
        simp [mlookup_mset_self]
      · rw [mlookup_mset_of_ne _ (f + 1) hak]
        simp only [List.mem_append, List.mem_singleton, hak, or_false]
        rw [List.Nodup.mem_erase_iff pnd]
        simp [hak, memp a]
    · exact bucket_push_back_sorted esorted
    · exact bucket_push_back_nonempty enonempty
    · intro q hq
      show q.2 = (p.erase k ++ [k]).filter (freq_is (mset st.keyFreq k (f + 1)) q.1)
      have hstep := pres q hq
      have h1 : (p.erase k).filter (freq_is (mset st.keyFreq k (f + 1)) q.1) =
          (p.erase k).filter (freq_is st.keyFreq q.1) := by
        refine List.filter_congr ?_
        intro a ha
        simp only [freq_is]
        rw [mlookup_mset_of_ne _ (f + 1) (hmem_erase a ha)]
      rw [List.filter_append, h1]
      by_cases hq1 : q.1 = f + 1
      · have hk2pred : freq_is (mset st.keyFreq k (f + 1)) q.1 k = true :=
          freq_is_iff.mpr (by rw [mlookup_mset_self, hq1])
        have hk2 : [k].filter (freq_is (mset st.keyFreq k (f + 1)) q.1) = [k] := by
          simp [List.filter_singleton, hk2pred]
        have hkneg : ¬ freq_is st.keyFreq q.1 k = true := by
          simp only [freq_is_iff, hf, hq1]
          intro hc
          injection hc with hh
          omega
        rw [hk2, filter_erase_of_neg hkneg, hstep, if_pos hq1, hq1,
            if_neg (by omega : ¬ f + 1 = f)]
      · have hk2pred : ¬ freq_is (mset st.keyFreq k (f + 1)) q.1 k = true := by
          simp only [freq_is_iff, mlookup_mset_self]
          intro hc
          injection hc with hh
          exact hq1 hh.symm
        have hkfalse : freq_is (mset st.keyFreq k (f + 1)) q.1 k = false :=
          Bool.eq_false_iff.mpr hk2pred
        have hk2 : [k].filter (freq_is (mset st.keyFreq k (f + 1)) q.1) = [] := by
          simp [List.filter_singleton, hkfalse]
        rw [hk2, List.append_nil, hstep, if_neg hq1]
        by_cases hqf : q.1 = f
        · have hkpos : freq_is st.keyFreq q.1 k = true :=
            freq_is_iff.mpr (by rw [hf, hqf])
          rw [if_pos hqf, hqf, filter_erase_comm pnd]
        · have hkneg : ¬ freq_is st.keyFreq q.1 k = true := by
            simp only [freq_is_iff, hf]
            intro hc
            injection hc with hh
            exact hqf hh.symm
          rw [if_neg hqf, filter_erase_of_neg hkneg]
    · intro a g ha
      have ha2 : mlookup (mset st.keyFreq k (f + 1)) a = some g := ha
      show g ∈ (bucket_push_back (f + 1) k (bucket_erase_key f k st.buckets)).map Prod.fst
      by_cases hak : a = k
      · subst hak
        rw [mlookup_mset_self] at ha2
        have : g = f + 1 := by
          injection ha2 with hh
          omega
        exact mem_map_fst_bucket_push_back.mpr (Or.inl this)
      · rw [mlookup_mset_of_ne _ (f + 1) hak] at ha2
        refine mem_map_fst_bucket_push_back.mpr (Or.inr ?_)
        by_cases hgf : g = f
        · subst hgf
          obtain ⟨q0, hq0, hq0f⟩ := List.mem_map.mp (complete a g ha2)
          have hq0' : (g, q0.2) ∈ st.buckets := by
            have : q0 = (g, q0.2) := Prod.ext hq0f rfl
            rwa [this] at hq0
          have hl : q0.2 = p.filter (freq_is st.keyFreq g) := by
            have := content q0 hq0
            rwa [hq0f] at this
          have hal : a ∈ q0.2 := by
            rw [hl]
            exact List.mem_filter.mpr ⟨(memp a).mpr (by simp [ha2]), freq_is_iff.mpr ha2⟩
          have haer : a ∈ q0.2.erase k := (List.mem_erase_of_ne hak).mpr hal
          exact mem_map_fst_bucket_erase_key_self sorted hq0'
            (List.ne_nil_of_mem haer)
        · exact mem_map_fst_bucket_erase_key_of_ne hgf (complete a g ha2)

theorem lfu_good_remove {st : LfuState K} {p : List K} {k : K}
    (h : LfuGood st p) :
    LfuGood (lfu_remove_key k st)
      (if (mlookup st.keyFreq k).isSome then p.erase k else p) := by
  obtain ⟨pnd, knd, memp, sorted, nonemptyB, content, complete⟩ := h
  cases hf : mlookup st.keyFreq k with
  | none =>
    have hid : lfu_remove_key k st = st := by
      simp [lfu_remove_key, hf]
    rw [hid]
    simpa using ⟨pnd, knd, memp, sorted, nonemptyB, content, complete⟩
  | some f =>
    have hsome : (mlookup st.keyFreq k).isSome := by simp [hf]
    have hrm : lfu_remove_key k st =
        { keyFreq := merase st.keyFreq k,
          buckets := bucket_erase_key f k st.buckets } := by
      simp [lfu_remove_key, hf]
    rw [hrm]
    simp only [Option.isSome_some, if_true]
    have hmem_erase : ∀ a ∈ p.erase k, a ≠ k := by
      intro a ha hc
      subst hc
      exact absurd ((List.Nodup.mem_erase_iff pnd).mp ha).1 (by simp)
    refine ⟨?_, ?_, ?_, ?_, ?_, ?_, ?_⟩
    · exact pnd.erase k
    · exact mkeys_nodup_merase knd
    · intro a
      show a ∈ p.erase k ↔ (mlookup (merase st.keyFreq k) a).isSome
      by_cases hak : a = k
      · subst hak
        rw [mlookup_merase_self knd]
        simp only [Option.isSome_none, Bool.false_eq_true, iff_false]
        intro hc
        exact absurd ((List.Nodup.mem_erase_iff pnd).mp hc).1 (by simp)
      · rw [mlookup_merase_of_ne _ hak, List.Nodup.mem_erase_iff pnd]
        simp [hak, memp a]
    · exact bucket_erase_key_sorted sorted
    · exact bucket_erase_key_nonempty nonemptyB
    · intro q hq
      show q.2 = (p.erase k).filter (freq_is (merase st.keyFreq k) q.1)
      have hstep := bucket_erase_key_content (k := k)
        (Q := fun g => p.filter (freq_is st.keyFreq g)) sorted content q hq
      have h1 : (p.erase k).filter (freq_is (merase st.keyFreq k) q.1) =
          (p.erase k).filter (freq_is st.keyFreq q.1) := by
        refine List.filter_congr ?_
        intro a ha
        simp only [freq_is]
        rw [mlookup_merase_of_ne _ (hmem_erase a ha)]
      rw [h1, hstep]
      by_cases hqf : q.1 = f
      · rw [if_pos hqf, hqf, filter_erase_comm pnd]
      · have hkneg : ¬ freq_is st.keyFreq q.1 k = true := by
          simp only [freq_is_iff, hf]
          intro hc
          injection hc with hh
          exact hqf hh.symm
        rw [if_neg hqf, filter_erase_of_neg hkneg]
    · intro a g ha
      have ha2 : mlookup (merase st.keyFreq k) a = some g := ha
      show g ∈ (bucket_erase_key f k st.buckets).map Prod.fst
      have hak : a ≠ k := by
        intro hc
        subst hc
        rw [mlookup_merase_self knd] at ha2
        cases ha2
      rw [mlookup_merase_of_ne _ hak] at ha2
      by_cases hgf : g = f
      · subst hgf
        obtain ⟨q0, hq0, hq0f⟩ := List.mem_map.mp (complete a g ha2)
        have hq0' : (g, q0.2) ∈ st.buckets := by
          have : q0 = (g, q0.2) := Prod.ext hq0f rfl
          rwa [this] at hq0
        have hl : q0.2 = p.filter (freq_is st.keyFreq g) := by
          have := content q0 hq0
          rwa [hq0f] at this
        have hal : a ∈ q0.2 := by
          rw [hl]
          exact List.mem_filter.mpr ⟨(memp a).mpr (by simp [ha2]), freq_is_iff.mpr ha2⟩
        have haer : a ∈ q0.2.erase k := (List.mem_erase_of_ne hak).mpr hal
        exact mem_map_fst_bucket_erase_key_self sorted hq0'
          (List.ne_nil_of_mem haer)
      · exact mem_map_fst_bucket_erase_key_of_ne hgf (complete a g ha2)

theorem lfu_good_apply {st : LfuState K} {p : List K} (op : LfuOp K)
    (h : LfuGood st p)
    (hop : match op with
           | .insert k => mlookup st.keyFreq k = none
           | _ => True) :
    LfuGood (lfu_apply st op) (promo_step st p op) := by
  cases op with
  | insert k => exact lfu_good_insert h hop
  | access k => exact lfu_good_increment h
  | update k => exact lfu_good_increment h
  | remove k => exact lfu_good_remove h

theorem lfu_good_foldg (ops : List (LfuOp K)) (s : LfuState K × List K)
    (hwf : lfu_wf_from s.1 ops = true) (h : LfuGood s.1 s.2) :
    LfuGood (ops.foldl lfu_step_g s).1 (ops.foldl lfu_step_g s).2 := by
  induction ops generalizing s with
  | nil => simpa using h
  | cons op rest ih =>
    rw [List.foldl_cons]
    simp only [lfu_wf_from, Bool.and_eq_true] at hwf
    refine ih _ hwf.2 ?_
    refine lfu_good_apply op h ?_
    cases op with
    | insert k =>
      have := hwf.1
      simp only [Option.isNone_iff_eq_none] at this
      exact this
    | access k => trivial
    | update k => trivial
    | remove k => trivial

/-- Every well-formed call sequence keeps the LFU policy in a good state. -/
theorem lfu_run_good (ops : List (LfuOp K)) (hwf : lfu_wf ops = true) :
    LfuGood (lfu_run_g ops).1 (lfu_run_g ops).2 := by
  refine lfu_good_foldg ops _ hwf ?_
  refine ⟨?_, ?_, ?_, ?_, ?_, ?_, ?_⟩ <;>
    simp [mkeys, mlookup]

/-- In a good state with at least one tracked key, `select_victim` returns the
head of the first (lowest-frequency) bucket; that key has globally minimal
frequency and is the earliest-promoted among the keys of that frequency. -/
theorem lfu_good_select {st : LfuState K} {p : List K}
    (h : LfuGood st p) (hne : st.keyFreq ≠ []) :
    ∃ v f rest, st.buckets.head? = some (f, v :: rest) ∧
      lfu_select_victim st = some v ∧
      mlookup st.keyFreq v = some f ∧
      (∀ a g, mlookup st.keyFreq a = some g → f ≤ g) ∧
      (p.filter (freq_is st.keyFreq f)).head? = some v := by
  obtain ⟨pnd, knd, memp, sorted, nonemptyB, content, complete⟩ := h
  obtain ⟨a0, f0, tl0, hkf⟩ : ∃ a0 f0 tl0, st.keyFreq = (a0, f0) :: tl0 := by
    cases hkf : st.keyFreq with
    | nil => exact absurd hkf hne
    | cons hd tl =>
      obtain ⟨a0, f0⟩ := hd
      exact ⟨a0, f0, tl, rfl⟩
  have ha0 : mlookup st.keyFreq a0 = some f0 := by
    rw [hkf]
    simp [mlookup]
  have hf0 := complete a0 f0 ha0
  cases hbs : st.buckets with
  | nil =>
    rw [hbs] at hf0
    simp at hf0
  | cons b0 brest =>
    obtain ⟨g0, l0⟩ := b0
    have hl0ne : l0 ≠ [] := nonemptyB (g0, l0) (by rw [hbs]; simp)
    have hl0 : l0 = p.filter (freq_is st.keyFreq g0) :=
      content (g0, l0) (by rw [hbs]; simp)
    cases hl : l0 with
    | nil => exact absurd hl hl0ne
    | cons v t =>
      have hpw : ∀ x ∈ brest.map Prod.fst, g0 < x := by
        have := sorted
        rw [hbs] at this
        simp only [List.map_cons, List.pairwise_cons] at this
        exact this.1
      refine ⟨v, g0, t, ?_, ?_, ?_, ?_, ?_⟩
      · rfl
      · show first_bucket_key st.buckets = some v
        rw [hbs, hl]
        rfl
      · have hv : v ∈ l0 := by rw [hl]; simp
        rw [hl0] at hv
        exact freq_is_iff.mp (List.mem_filter.mp hv).2
      · intro a g hag
        have hmem := complete a g hag
        rw [hbs] at hmem
        simp only [List.map_cons, List.mem_cons] at hmem
        rcases hmem with hh | hh
        · omega
        · have := hpw g hh
          omega
      · rw [← hl0, hl]
        rfl

/-! ### Inputs for the concrete claim theorems -/

/-- A policy-composed LRU cache whose eviction policy tracks key 1 while
storage holds only key 2 — the policy-inconsistency situation (reachable
through the public `eviction_policy()` accessor). -/
def c1_state : LruCache Nat String := ⟨[(2, "b")], [1], (), 1⟩

/-- The operation sequence of the RANDOM determinism claim. -/
def c5_ops : List (CacheOp Nat String) :=
  [.put 1 "a", .put 2 "b", .put 3 "c"]

/-- Scenario 2 of the spec: `put(1,"a"); put(2,"b"); get(1); put(3,"c")` on an
LRU cache of capacity 2. -/
def c6_after_puts : LruCache Nat String :=
  pb_put lruOps fixedCapOps 3 "c"
    ((pb_get lruOps updateOnAccessOps 1
      (pb_put lruOps fixedCapOps 2 "b"
        (pb_put lruOps fixedCapOps 1 "a" (lruCacheInit 2)))).2)

/-- The state after the subsequent `get(2)` (the not-found probe). -/
def c6_after_get2 : LruCache Nat String :=
  (pb_get lruOps updateOnAccessOps 2 c6_after_puts).2

/-- The state after the subsequent `get(1)`. -/
def c6_after_get1 : LruCache Nat String :=
  (pb_get lruOps updateOnAccessOps 1 c6_after_get2).2

/-- Scenario 6 of the spec: `put(1,"a"); put(2,"b"); put(1,"a2")` on a FIFO
cache of capacity 2. -/
def c8_fifo_state : FifoCache Nat String :=
  pb_put fifoOps fixedCapOps 1 "a2"
    (pb_put fifoOps fixedCapOps 2 "b"
      (pb_put fifoOps fixedCapOps 1 "a" (fifoCacheInit 2)))

/-- The LFU policy state after `on_insert(1); remove_key(1)` — the state the
cache reaches when its only key is erased. -/
def c10_state : FifoState Nat := fifo_remove_key 1 (fifo_on_insert 1 ⟨[], []⟩)

/-- A short well-formed LFU call sequence: two inserts and one access. -/
def c7_ops : List (LfuOp Nat) := [.insert 1, .insert 2, .access 1]

/-! ### The claim theorems -/

/-- C1: the claim says that when the eviction loop's victim is absent from
storage, `put` fails with a surfaced policy-inconsistency error and inserts
nothing.  The code throws `policy_error` but immediately catches it in the
same loop (`catch (const std::runtime_error&) { break; }`, since
`policy_error` derives from `std::runtime_error`), so `put` returns normally
and inserts the new entry: from the inconsistent state `c1_state` (capacity 1,
storage `{2 ↦ "b"}`, LRU list `[1]`), `put(3, "c")` selects victim 1, fails to
erase it, swallows the error, and ends with both keys resident and
`size() = 2 > capacity() = 1`. -/
theorem c1_policy_inconsistency_swallowed :
    lru_select_victim c1_state.evict = some 1 ∧
    pb_contains 1 c1_state = false ∧
    fixed_needs_eviction c1_state.cap (pb_size c1_state) = true ∧
    pb_put lruOps fixedCapOps 3 "c" c1_state =
      ⟨[(2, "b"), (3, "c")], [3, 1], (), 1⟩ ∧
    pb_contains 3 (pb_put lruOps fixedCapOps 3 "c" c1_state) = true ∧
    pb_size (pb_put lruOps fixedCapOps 3 "c" c1_state) = 2 := by
  decide

/-- C2 (counterexample): at capacity 0 the size bound `size() ≤ capacity()`
fails after one `put` — the eviction loop runs before the insert, so the new
entry always lands and `size() = 1 > 0`. -/
theorem c2_size_bound_capacity_zero_violated :
    ¬ (pb_size (lru_run 0 [CacheOp.put 1 "a"]) ≤
        pb_capacity fixedCapOps (lru_run 0 [CacheOp.put 1 "a"])) := by
  decide

/-- C2 (amended): on the LRU-composed cache with the fixed capacity policy,
every reachable state satisfies `size() ≤ max capacity() 1`; the `1` is
exactly the capacity-0 slack the counterexample exhibits, and for capacity ≥ 1
this is the claimed bound `size() ≤ capacity()`. -/
theorem c2_size_bound_amended (n : Nat) (ops : List (CacheOp Nat String)) :
    pb_size (lru_run n ops) ≤ max (pb_capacity fixedCapOps (lru_run n ops)) 1 :=
  (lru_run_inv n ops).2

/-- C4 (counterexample): for the soft capacity policy with target 10 and
tolerance 1/5 (hard-max 12), `eviction_count` is not the minimum number of
evictions that restores `size ≤ hard-max`: at size 11 it returns 1 although
0 suffice (11 + 1 ≤ 12), and at size 12 it returns 3 although 1 suffices. -/
theorem c4_soft_eviction_count_not_minimal :
    soft_cap_make 10 (1/5) = ⟨10, 12⟩ ∧
    11 + 1 ≤ (soft_cap_make 10 (1/5)).maxCap ∧
    soft_eviction_count (soft_cap_make 10 (1/5)) 11 = 1 ∧
    spec_min_eviction_count 12 11 = 0 ∧
    soft_eviction_count (⟨10, 12⟩ : SoftCap) 12 = 3 ∧
    spec_min_eviction_count 12 12 = 1 := by
  have hmk : soft_cap_make 10 (1/5) = ⟨10, 12⟩ := by
    show SoftCap.mk 10 ((((10 : Nat) : ℚ) * (1 + 1/5)).floor).toNat = ⟨10, 12⟩
    have h : ((10 : Nat) : ℚ) * (1 + 1/5) = ((12 : ℤ) : ℚ) := by norm_num
    rw [h]
    rfl
  rw [hmk]
  exact ⟨rfl, by decide, by decide, by decide, by decide, by decide⟩

/-- C4 (amended): the soft capacity policy with target `t` and hard-max
`m ≥ t` drains toward the *target*, not toward the hard-max: eviction fires
iff `s ≥ m`; at/above the hard-max the count satisfies `count + t = s + 1`
(one eviction beyond draining to the target, making room for the insert) and
is at least the minimum needed for `size ≤ m`; strictly between target and
hard-max the count is the gradual 1; at/below the target (and below hard-max)
it is 0. -/
theorem c4_soft_capacity_amended (t m s : Nat) (ht : t ≤ m) :
    (soft_needs_eviction ⟨t, m⟩ s = true ↔ m ≤ s) ∧
    (m ≤ s → soft_eviction_count ⟨t, m⟩ s + t = s + 1) ∧
    (t < s → s < m → soft_eviction_count ⟨t, m⟩ s = 1) ∧
    (s ≤ t → s < m → soft_eviction_count ⟨t, m⟩ s = 0) ∧
    (m ≤ s → spec_min_eviction_count m s ≤ soft_eviction_count ⟨t, m⟩ s) := by
  refine ⟨?_, ?_, ?_, ?_, ?_⟩
  · simp [soft_needs_eviction]
  · intro hms
    have hts : t ≤ s := le_trans ht hms
    simp only [soft_eviction_count, if_pos hms]
    omega
  · intro h1 h2
    have hns : ¬ m ≤ s := by omega
    simp [soft_eviction_count, hns, h1]
  · intro h1 h2
    have hns : ¬ m ≤ s := by omega
    have h3 : ¬ t < s := by omega
    simp [soft_eviction_count, hns, h3]
  · intro hms
    have hts : t ≤ s := le_trans ht hms
    simp only [soft_eviction_count, if_pos hms, spec_min_eviction_count]
    omega

theorem c4_soft_capacity_amended_witness :
    (soft_needs_eviction ⟨10, 12⟩ 13 = true ↔ 12 ≤ 13) ∧
    (12 ≤ 13 → soft_eviction_count ⟨10, 12⟩ 13 + 10 = 13 + 1) ∧
    (10 < 13 → 13 < 12 → soft_eviction_count ⟨10, 12⟩ 13 = 1) ∧
    (13 ≤ 10 → 13 < 12 → soft_eviction_count ⟨10, 12⟩ 13 = 0) ∧
    (12 ≤ 13 → spec_min_eviction_count 12 13 ≤ soft_eviction_count ⟨10, 12⟩ 13) :=
  c4_soft_capacity_amended 10 12 13 (by decide)

/-- C5 (counterexample): the RANDOM policy has no `seed(value)` method — its
constructor seeds the process-wide C PRNG with `srand(time(nullptr))` and
`select_victim` draws from the global `rand()` stream.  Two runs with the
same capacity and the same operation sequence but different ambient PRNG
streams (here the next `rand()` value is 0 vs. 1) evict different keys and
end with different contents, so determinism of eviction is not available
through any per-cache seed. -/
theorem c5_random_depends_on_ambient_stream :
    pb_contains 1 (rand_run 2 [0] c5_ops) = false ∧
    pb_contains 1 (rand_run 2 [1] c5_ops) = true ∧
    rand_run 2 [0] c5_ops ≠ rand_run 2 [1] c5_ops := by
  decide

/-- C5 (amended): victim selection is a deterministic function of the ambient
global `rand()` stream: `select_victim` always returns a tracked key
(`m_keys[rand() % size]`), and two runs with identical operation sequences
and identical ambient streams produce identical caches.  The source offers no
`seed(value)` method; the stream is fixed by `srand(time(nullptr))` at
construction, outside the caller's control. -/
theorem c5_random_amended :
    (∀ (st : RandState Nat), st.keys ≠ [] →
      ∃ k, (rand_select_victim st).1 = some k ∧ k ∈ st.keys) ∧
    (∀ (n : Nat) (ops : List (CacheOp Nat String)) (s1 s2 : List Nat),
      s1 = s2 → rand_run n s1 ops = rand_run n s2 ops) := by
  constructor
  · intro st hne
    have hlen : 0 < st.keys.length := List.length_pos.mpr hne
    have hemp : st.keys.isEmpty = false := by
      cases hkk : st.keys with
      | nil => exact absurd hkk hne
      | cons a as => rfl
    have hidx : st.stream.headI % st.keys.length < st.keys.length :=
      Nat.mod_lt _ hlen
    refine ⟨st.keys[st.stream.headI % st.keys.length], ?_, List.getElem_mem hidx⟩
    simp only [rand_select_victim, hemp, Bool.false_eq_true, if_false]
    exact List.getElem?_eq_getElem hidx
  · intro n ops s1 s2 h
    rw [h]

theorem c5_random_amended_witness :
    ((⟨[1, 2], [0]⟩ : RandState Nat).keys ≠ [] ∧
      ∃ k, (rand_select_victim (⟨[1, 2], [0]⟩ : RandState Nat)).1 = some k ∧
        k ∈ (⟨[1, 2], [0]⟩ : RandState Nat).keys) ∧
    rand_run 2 [5] c5_ops = rand_run 2 [5] c5_ops :=
  ⟨⟨by decide, c5_random_amended.1 ⟨[1, 2], [0]⟩ (by decide)⟩,
   c5_random_amended.2 2 c5_ops [5] [5] rfl⟩

/-- C6: on the LRU-composed cache of capacity 2, after
`put(1,"a"); put(2,"b"); get(1); put(3,"c")` exactly key 2 has been evicted:
the subsequent `get(2)` misses (not-found), then `get(1)` returns `"a"` and
`get(3)` returns `"c"`. -/
theorem c6_lru_scenario :
    pb_contains 2 c6_after_puts = false ∧
    pb_contains 1 c6_after_puts = true ∧
    pb_contains 3 c6_after_puts = true ∧
    pb_size c6_after_puts = 2 ∧
    (pb_get lruOps updateOnAccessOps 2 c6_after_puts).1 = none ∧
    (pb_get lruOps updateOnAccessOps 1 c6_after_get2).1 = some "a" ∧
    (pb_get lruOps updateOnAccessOps 3 c6_after_get1).1 = some "c" := by
  decide

/-- C7: for every well-formed call sequence on the LFU policy whose final
state tracks at least one key, `select_victim` returns the head of the first
(lowest-frequency) bucket; that key has minimal frequency among all tracked
keys, and among the keys of that minimal frequency it is the head of the
promotion-order ghost list — the key inserted into or promoted to that
frequency longest ago. -/
theorem c7_lfu_victim_minimal (ops : List (LfuOp Nat))
    (hwf : lfu_wf ops = true) (hne : (lfu_run_g ops).1.keyFreq ≠ []) :
    ∃ v f rest,
      (lfu_run_g ops).1.buckets.head? = some (f, v :: rest) ∧
      lfu_select_victim (lfu_run_g ops).1 = some v ∧
      mlookup (lfu_run_g ops).1.keyFreq v = some f ∧
      (∀ a g, mlookup (lfu_run_g ops).1.keyFreq a = some g → f ≤ g) ∧
      ((lfu_run_g ops).2.filter (freq_is (lfu_run_g ops).1.keyFreq f)).head? =
        some v :=
  lfu_good_select (lfu_run_good ops hwf) hne

theorem c7_lfu_victim_minimal_witness :
    lfu_wf c7_ops = true ∧
    ∃ v f rest,
      (lfu_run_g c7_ops).1.buckets.head? = some (f, v :: rest) ∧
      lfu_select_victim (lfu_run_g c7_ops).1 = some v ∧
      mlookup (lfu_run_g c7_ops).1.keyFreq v = some f ∧
      (∀ a g, mlookup (lfu_run_g c7_ops).1.keyFreq a = some g → f ≤ g) ∧
      ((lfu_run_g c7_ops).2.filter (freq_is (lfu_run_g c7_ops).1.keyFreq f)).head? =
        some v :=
  ⟨by decide, c7_lfu_victim_minimal c7_ops (by decide) (by decide)⟩

/-- C8: on any policy configuration, `put(k,v1); put(k,v2)` makes `get(k)`
return `v2` while the size stays what it was after the first put (the second
put takes the overwrite path and cannot trigger eviction); the FIFO policy's
`on_update` is the identity, so an update does not change insertion order —
witnessed end-to-end by spec scenario 6 (`put(1,"a"); put(2,"b");
put(1,"a2")` at capacity 2 keeps both keys and `get(1) = "a2"`). -/
theorem c8_update_overwrites_in_place :
    (∀ (E A C : Type) (eo : EvictionOps Nat E) (ao : AccessOps Nat A)
        (co : CapacityOps C) (k : Nat) (v1 v2 : String)
        (st : PBCache Nat String E A C),
      (pb_get eo ao k (pb_put eo co k v2 (pb_put eo co k v1 st))).1 = some v2 ∧
      pb_size (pb_put eo co k v2 (pb_put eo co k v1 st)) =
        pb_size (pb_put eo co k v1 st)) ∧
    (∀ (k : Nat) (fs : FifoState Nat), fifo_on_update k fs = fs) ∧
    ((pb_get fifoOps noUpdateOnAccessOps 1 c8_fifo_state).1 = some "a2" ∧
     pb_size c8_fifo_state = 2 ∧
     pb_contains 2 c8_fifo_state = true) := by
  refine ⟨?_, fun k fs => rfl, by decide⟩
  intro E A C eo ao co k v1 v2 st
  have h1 : mlookup (pb_put eo co k v1 st).storage k = some v1 :=
    pb_put_lookup_self eo co k v1 st
  have hs : (mlookup (pb_put eo co k v1 st).storage k).isSome := by simp [h1]
  rw [pb_put_update_eq eo co k v2 _ hs]
  constructor
  · simp [pb_get, mlookup_mset_self]
  · show (mset (pb_put eo co k v1 st).storage k v2).length =
      pb_size (pb_put eo co k v1 st)
    simp [pb_size, length_mset_present v2 hs]

/-- C9: for the LFU and MFU policies, a key's frequency counter starts at 1
on `on_insert` and never decreases while the key stays tracked: `on_access`
and `on_update` raise it by exactly 1, and no operation on another key (nor
`remove_key`, which only stops tracking its own key) changes it. -/
theorem c9_frequency_monotonicity :
    (∀ (st : LfuState Nat) (k : Nat), mlookup st.keyFreq k = none →
      mlookup (lfu_on_insert k st).keyFreq k = some 1) ∧
    (∀ (st : LfuState Nat) (k f : Nat), mlookup st.keyFreq k = some f →
      mlookup (lfu_on_access k st).keyFreq k = some (f + 1)) ∧
    (∀ (st : LfuState Nat) (k f : Nat), mlookup st.keyFreq k = some f →
      mlookup (lfu_on_update k st).keyFreq k = some (f + 1)) ∧
    (∀ (st : LfuState Nat) (k a f : Nat), a ≠ k →
      mlookup st.keyFreq a = some f →
      mlookup (lfu_on_insert k st).keyFreq a = some f ∧
      mlookup (lfu_on_access k st).keyFreq a = some f ∧
      mlookup (lfu_on_update k st).keyFreq a = some f ∧
      mlookup (lfu_remove_key k st).keyFreq a = some f) ∧
    (∀ (st : LfuState Nat) (k : Nat), mlookup st.keyFreq k = none →
      mlookup (mfu_on_insert k st).keyFreq k = some 1) ∧
    (∀ (st : LfuState Nat) (k f : Nat), mlookup st.keyFreq k = some f →
      mlookup (mfu_on_access k st).keyFreq k = some (f + 1)) ∧
    (∀ (st : LfuState Nat) (k f : Nat), mlookup st.keyFreq k = some f →
      mlookup (mfu_on_update k st).keyFreq k = some (f + 1)) ∧
    (∀ (st : LfuState Nat) (k a f : Nat), a ≠ k →
      mlookup st.keyFreq a = some f →
      mlookup (mfu_on_insert k st).keyFreq a = some f ∧
      mlookup (mfu_on_access k st).keyFreq a = some f ∧
      mlookup (mfu_on_update k st).keyFreq a = some f ∧
      mlookup (mfu_remove_key k st).keyFreq a = some f) := by
  refine ⟨?_, ?_, ?_, ?_, ?_, ?_, ?_, ?_⟩
  · intro st k _
    exact mlookup_mset_self st.keyFreq k 1
  · intro st k f h
    simp [lfu_on_access, lfu_increment_frequency, h, mlookup_mset_self]
  · intro st k f h
    simp [lfu_on_update, lfu_increment_frequency, h, mlookup_mset_self]
  · intro st k a f hak h
    refine ⟨?_, ?_, ?_, ?_⟩
    · show mlookup (mset st.keyFreq k 1) a = some f
      rw [mlookup_mset_of_ne _ 1 hak]
      exact h
    · cases hk : mlookup st.keyFreq k with
      | none => simpa [lfu_on_access, lfu_increment_frequency, hk] using h
      | some g =>
        simp only [lfu_on_access, lfu_increment_frequency, hk]
        rw [mlookup_mset_of_ne _ (g + 1) hak]
        exact h
    · cases hk : mlookup st.keyFreq k with
      | none => simpa [lfu_on_update, lfu_increment_frequency, hk] using h
      | some g =>
        simp only [lfu_on_update, lfu_increment_frequency, hk]
        rw [mlookup_mset_of_ne _ (g + 1) hak]
        exact h
    · cases hk : mlookup st.keyFreq k with
      | none => simpa [lfu_remove_key, hk] using h
      | some g =>
        simp only [lfu_remove_key, hk]
        rw [mlookup_merase_of_ne _ hak]
        exact h
  · intro st k _
    exact mlookup_mset_self st.keyFreq k 1
  · intro st k f h
    simp [mfu_on_access, mfu_increment_frequency, h, mlookup_mset_self]
  · intro st k f h
    simp [mfu_on_update, mfu_increment_frequency, h, mlookup_mset_self]
  · intro st k a f hak h
    refine ⟨?_, ?_, ?_, ?_⟩
    · show mlookup (mset st.keyFreq k 1) a = some f
      rw [mlookup_mset_of_ne _ 1 hak]
      exact h
    · cases hk : mlookup st.keyFreq k with
      | none => simpa [mfu_on_access, mfu_increment_frequency, hk] using h
      | some g =>
        simp only [mfu_on_access, mfu_increment_frequency, hk]
        rw [mlookup_mset_of_ne _ (g + 1) hak]
        exact h
    · cases hk : mlookup st.keyFreq k with
      | none => simpa [mfu_on_update, mfu_increment_frequency, hk] using h
      | some g =>
        simp only [mfu_on_update, mfu_increment_frequency, hk]
        rw [mlookup_mset_of_ne _ (g + 1) hak]
        exact h
    · cases hk : mlookup st.keyFreq k with
      | none => simpa [mfu_remove_key, hk] using h
      | some g =>
        simp only [mfu_remove_key, hk]
        rw [mlookup_merase_of_ne _ hak]
        exact h

theorem c9_frequency_monotonicity_witness :
    mlookup ((lfu_on_insert 1 (⟨[], []⟩ : LfuState Nat)).keyFreq) 1 = some 1 ∧
    mlookup ((lfu_on_access 1 (lfu_on_insert 1 (⟨[], []⟩ : LfuState Nat))).keyFreq) 1 =
      some 2 ∧
    mlookup ((mfu_on_update 1 (mfu_on_insert 1 (⟨[], []⟩ : LfuState Nat))).keyFreq) 1 =
      some 2 ∧
    mlookup ((lfu_remove_key 2 (lfu_on_insert 1 (⟨[], []⟩ : LfuState Nat))).keyFreq) 1 =
      some 1 :=
  ⟨c9_frequency_monotonicity.1 ⟨[], []⟩ 1 (by decide),
   c9_frequency_monotonicity.2.1 (lfu_on_insert 1 ⟨[], []⟩) 1 1 (by decide),
   c9_frequency_monotonicity.2.2.2.2.2.1 (mfu_on_insert 1 ⟨[], []⟩) 1 1 (by decide),
   (c9_frequency_monotonicity.2.2.2.1 (lfu_on_insert 1 ⟨[], []⟩) 2 1 1 (by decide)
     (by decide)).2.2.2⟩

/-- C10: the claim (and the `eviction_policy_base` documentation of `empty`)
require `empty()` ⇔ `size() == 0`.  The FIFO policy's `remove_key` only
tombstones the key in `m_key_exists`, and `empty()` tests that map's
emptiness, so after `on_insert(1); remove_key(1)` the policy reports
`size() = 0` but `empty() = false`. -/
theorem c10_fifo_empty_size_disagreement :
    fifo_size c10_state = 0 ∧
    fifo_empty c10_state = false ∧
    ¬ (fifo_empty c10_state = true ↔ fifo_size c10_state = 0) := by
  decide

end CacheEngine
